import Mathlib

/-!
Verification development for the `regexp` repository (package `regexp/`):
a regular-expression engine that parses a pattern into a Thompson NFA
(`regexp/pattern.py`), determinizes it by subset construction, completes
the DFA with a shared trap node, and minimizes it by signature refinement
(`regexp/automatons.py`, `regexp/nodes.py`).

The embedding mirrors the Python sources:
* node identities are the global monotonically-assigned `Node.id` values
  (the module-level `trap_node` is created first and has id 0; `Node.count`
  is then 1, so every later node gets an id greater than 0);
* nondeterministic nodes (`NDN`) carry a multimap label -> set of targets,
  deterministic nodes (`DN`) carry a map label -> single target;
* Python sets of node ids are represented canonically as strictly sorted
  `List Nat`; Python `dict` insertion-order semantics are modelled by
  association lists where updating an existing key keeps its position and
  a new key is appended at the end;
* Python iteration over a hash `set` has no specified order; whenever the
  source iterates such a set we fix a deterministic order (sorted).  This
  only influences the numbering of freshly created nodes, never the shape
  or the language of the produced automata;
* loops whose termination is not structural take an explicit fuel argument
  and return `Option`/`Except`; `none` marks fuel exhaustion and never
  occurs for the concrete inputs used below;
* exceptions raised by the Python code (including unintended ones such as
  the `StopIteration` escaping `parse.main` on an empty pattern and the
  `TypeError` caused by swapped `ParsingError` arguments) are modelled as
  explicit error values.
-/

set_option maxRecDepth 10000

namespace Regexp

/-- Transition label: the empty (ε) label, the catch-all Σ sentinel, or a
    concrete character (`regexp/char.py`). -/
inductive Label where
  | eps : Label
  | sig : Label
  | chr : Char → Label
deriving DecidableEq, Repr

/-- Linear order used when the model must fix an iteration order for a set
    of labels: characters by codepoint, Σ last, ε first (ε is always
    filtered out before sorting is relevant). -/
def Label.leB : Label → Label → Bool
  | .eps, _ => true
  | _, .eps => false
  | .chr a, .chr b => a.toNat ≤ b.toNat
  | .chr _, .sig => true
  | .sig, .chr _ => false
  | .sig, .sig => true

/-- Insert into a sorted label list (used to model sorted set iteration). -/
def insLabel (l : Label) (xs : List Label) : List Label :=
  match xs with
  | [] => [l]
  | x :: rest =>
      if l = x then x :: rest
      else if Label.leB l x then l :: x :: rest
      else x :: insLabel l rest

/-- Union of a label list into a sorted accumulator. -/
def unionLabels (xs acc : List Label) : List Label :=
  match xs with
  | [] => acc
  | x :: rest => unionLabels rest (insLabel x acc)

/-- Insert a node id into a strictly sorted id list (canonical set form). -/
def insNat (n : Nat) (xs : List Nat) : List Nat :=
  match xs with
  | [] => [n]
  | x :: rest =>
      if n = x then x :: rest
      else if n < x then n :: x :: rest
      else x :: insNat n rest

/-- Union of an id list into a canonical sorted set. -/
def unionNat (xs acc : List Nat) : List Nat :=
  match xs with
  | [] => acc
  | x :: rest => unionNat rest (insNat x acc)

/-- Set difference on id lists (`xs` minus members of `ys`). -/
def diffNat (xs ys : List Nat) : List Nat :=
  xs.filter (fun x => !ys.contains x)

/-- Association-list lookup (first entry wins, like a Python `dict`). -/
def alookup {α β : Type} [DecidableEq α] (k : α) : List (α × β) → Option β
  | [] => none
  | (a, b) :: rest => if a = k then some b else alookup k rest

/-- Association-list update with Python `dict` semantics: replacing an
    existing key keeps its position, a new key is appended at the end. -/
def aupdate {α β : Type} [DecidableEq α] (k : α) (v : β) :
    List (α × β) → List (α × β)
  | [] => [(k, v)]
  | (a, b) :: rest =>
      if a = k then (k, v) :: rest else (a, b) :: aupdate k v rest

/-- Nondeterministic node (`regexp/nodes.py`, class `NDN`): finality flag
    plus a multimap from labels to sets of target ids. -/
structure NDNode where
  isFinal : Bool
  trans : List (Label × List Nat)
deriving DecidableEq, Repr

/-- Deterministic node (`regexp/nodes.py`, class `DN`): finality flag plus
    a map from labels to single target ids. -/
structure DNode where
  isFinal : Bool
  trans : List (Label × Nat)
deriving DecidableEq, Repr

/-- The module-level trap node of `regexp/nodes.py`: non-final, a single
    Σ self-loop, created at import time with id 0. -/
def trapNode : DNode := ⟨false, [(Label.sig, 0)]⟩

/-- Global mutable state of a compilation: the `Node.count` counter and the
    stores of nondeterministic and deterministic nodes keyed by id. -/
structure World where
  counter : Nat
  nmap : List (Nat × NDNode)
  dmap : List (Nat × DNode)
deriving DecidableEq, Repr

/-- State after importing `regexp.nodes`: the trap node exists with id 0
    and `Node.count` is 1. -/
def worldInit : World := ⟨1, [], [(0, trapNode)]⟩

/-- Fetch a nondeterministic node (total; absent ids yield an inert node,
    which never happens on the ids the pipeline produces). -/
def getN (w : World) (i : Nat) : NDNode :=
  (alookup i w.nmap).getD ⟨false, []⟩

/-- Fetch a deterministic node (total, same convention as `getN`). -/
def getD (w : World) (i : Nat) : DNode :=
  (alookup i w.dmap).getD ⟨false, []⟩

/-- Create a fresh nondeterministic node (`NDN(is_final)`), consuming the
    next id from the global counter. -/
def newNDN (w : World) (fin : Bool) : World × Nat :=
  (⟨w.counter + 1, w.nmap ++ [(w.counter, ⟨fin, []⟩)], w.dmap⟩, w.counter)

/-- Create a fresh deterministic node (`DN(is_final)`). -/
def newDN (w : World) (fin : Bool) : World × Nat :=
  (⟨w.counter + 1, w.nmap, w.dmap ++ [(w.counter, ⟨fin, []⟩)]⟩, w.counter)

/-- `NDN.add(char, node)`: insert a target into the label's target set
    (the target sets are kept in canonical sorted form). -/
def nAdd (w : World) (i : Nat) (l : Label) (t : Nat) : World :=
  let nd := getN w i
  let tgts := (alookup l nd.trans).getD []
  let nd' : NDNode := ⟨nd.isFinal, aupdate l (insNat t tgts) nd.trans⟩
  ⟨w.counter, aupdate i nd' w.nmap, w.dmap⟩

/-- `NDN.read(char)`: the stored target set for a label (empty if absent). -/
def ndRead (w : World) (i : Nat) (l : Label) : List Nat :=
  (alookup l (getN w i).trans).getD []

/-- Overwrite the stored target set of one label of one NDN.  This models
    the aliasing in `DFA.from_ndfa`: `node.read(char)` returns the stored
    set object and `nda._expand(targets)` then mutates it in place. -/
def nSetEdge (w : World) (i : Nat) (l : Label) (tgts : List Nat) : World :=
  let nd := getN w i
  ⟨w.counter, aupdate i (⟨nd.isFinal, aupdate l tgts nd.trans⟩ : NDNode) w.nmap, w.dmap⟩

/-- `DN.add(char, node)`: map the label to the target, overwriting any
    previous target for that label. -/
def dAdd (w : World) (i : Nat) (l : Label) (t : Nat) : World :=
  let nd := getD w i
  ⟨w.counter, w.nmap, aupdate i (⟨nd.isFinal, aupdate l t nd.trans⟩ : DNode) w.dmap⟩

/-- `DN.read(char)`: the target of the concrete character if present, else
    the target of Σ if present, else no transition. -/
def dnRead (n : DNode) (c : Char) : Option Nat :=
  match alookup (Label.chr c) n.trans with
  | some t => some t
  | none => alookup Label.sig n.trans

/-! ## NFA matching (`NDFA.match` and `NDFA._expand`) -/

/-- Loop body of `NDFA._expand`: repeatedly add the ε-targets of the nodes
    added in the previous round until nothing new appears. -/
def expandLoop (w : World) : Nat → List Nat → List Nat → List Nat
  | 0, nodes, _ => nodes
  | fuel + 1, nodes, newNodes =>
      let nextNodes := newNodes.foldl (fun acc n => unionNat (ndRead w n .eps) acc) []
      let fresh := diffNat nextNodes nodes
      if fresh.isEmpty then nodes
      else expandLoop w fuel (unionNat fresh nodes) fresh

/-- ε-closure of a set of NFA nodes (`NDFA._expand`); one node is added per
    round at least, so `nmap.length + 1` rounds always reach the fixed point. -/
def closureW (w : World) (s : List Nat) : List Nat :=
  expandLoop w (w.nmap.length + 1) s s

/-- Main loop of `NDFA.match`: step the current state set by the symbol and
    by Σ, close under ε, reject as soon as the set is empty. -/
def nfaMatchGo (w : World) : List Nat → List Char → Bool
  | cur, [] => cur.any (fun n => (getN w n).isFinal)
  | cur, c :: cs =>
      let stepped := cur.foldl
        (fun acc n => unionNat (ndRead w n (.chr c)) (unionNat (ndRead w n .sig) acc)) []
      let nxt := closureW w stepped
      if nxt.isEmpty then false else nfaMatchGo w nxt cs

/-- `NDFA.match(string)`: full-string acceptance of the NFA rooted at `init`. -/
def nfaMatch (w : World) (init : Nat) (s : List Char) : Bool :=
  nfaMatchGo w (closureW w [init]) s

/-! ## Pattern parser (`regexp/pattern.py`, function `parse`) -/

/-- Outcomes of `parse` that are not a successfully built NFA.  Besides the
    two properly raised `ParsingError`s, the source can raise: an uncaught
    `StopIteration` (from the unguarded `next(p2)` in `parse.main` when the
    pattern is empty); a `TypeError` from `ParsingError.__init__` when
    `parse.main` raises "Unmatched parenthesis" with its `pattern` and
    `index` arguments swapped (slicing an `int`); and a `TypeError` from
    `concat` comparing `"a" <= SIGMA` when IGNORE_CASE is set and the label
    is the Σ sentinel.  `outOfFuel` is an artifact of the embedding only. -/
inductive PErr where
  | stopIteration : PErr
  | invalidKleene (index : Nat) : PErr
  | invalidEscape (index : Nat) : PErr
  | unmatchedParenTypeError : PErr
  | ignoreCaseSigmaTypeError : PErr
  | outOfFuel : PErr
deriving DecidableEq, Repr

/-- The `(char, next_char)` stream `zip_longest(p1, p2)` of `parse.main`. -/
def mkPairs : List Char → List (Char × Option Char)
  | [] => []
  | c :: cs => (c, cs.head?) :: mkPairs cs

/-- `parse.concat(start, char)`: a fresh node reached from `start` by the
    label; with IGNORE_CASE, lowercase ASCII letters get an uppercase
    sibling edge, and (because of the `elif "A" <= char <= "A"` comparison
    in the source) only the letter `A` gets a lowercase sibling. -/
def concatW (flags : Nat) (w : World) (startN : Nat) (l : Label) :
    Except PErr (World × Nat) :=
  let (w1, newN) := newNDN w false
  let w2 := nAdd w1 startN l newN
  if flags.land 1 ≠ 0 then
    match l with
    | .chr c =>
        if 'a' ≤ c && c ≤ 'z' then
          .ok (nAdd w2 startN (.chr (Char.ofNat (c.toNat - 32))) newN, newN)
        else if 'A' ≤ c && c ≤ 'A' then
          .ok (nAdd w2 startN (.chr (Char.ofNat (c.toNat + 32))) newN, newN)
        else .ok (w2, newN)
    | .sig => .error .ignoreCaseSigmaTypeError
    | .eps => .ok (w2, newN)
  else .ok (w2, newN)

/-- `parse.kleene(start, start_in, *ends_in)`: fresh exit node, ε edges
    skipping the body and looping each body exit back to the body entry. -/
def kleeneW (w : World) (startN startIn : Nat) (endsIn : List Nat) : World × Nat :=
  let (w1, endN) := newNDN w false
  let w2 := nAdd (nAdd w1 startN .eps startIn) startN .eps endN
  let w3 := endsIn.foldl (fun wa e => nAdd (nAdd wa e .eps startIn) e .eps endN) w2
  (w3, endN)

/-- Loop of `parse.groups` over the shared pair iterator.  The recursive
    call for `(` inlines the prologue of `groups` (fresh `kleene_start`,
    ε edge from the group's start).  Returns the updated world, the `skip`
    flag, the final `index`, and the unconsumed remainder of the stream. -/
def groupsLoop (flags : Nat) : Nat → World → Nat → Nat → Nat →
    List (Char × Option Char) → Nat → Nat → Bool → Bool → Nat → List Nat → Nat →
    Except PErr (World × Bool × Nat × List (Char × Option Char))
  | 0, _, _, _, _, _, _, _, _, _, _, _, _ => .error .outOfFuel
  | fuel + 1, w, startN, endN, ks, stream, startIdx, delta, skip, esc, lastN, lastNs, index =>
    match stream with
    | [] =>
        if esc then .error (.invalidEscape index)
        else .ok (nAdd w lastN .eps endN, skip, index, [])
    | (c, nxt) :: rest =>
        let idx := startIdx + delta
        if esc then
          if nxt = some '*' then
            match concatW flags (newNDN w false).1 (newNDN w false).2 (.chr c) with
            | .error e => .error e
            | .ok (w2, endIn) =>
                let (w3, lastN') := kleeneW w2 lastN (newNDN w false).2 [endIn]
                groupsLoop flags fuel w3 startN endN ks rest startIdx (delta + 1)
                  true false lastN' lastNs idx
          else
            match concatW flags w lastN (.chr c) with
            | .error e => .error e
            | .ok (w2, lastN') =>
                groupsLoop flags fuel w2 startN endN ks rest startIdx (delta + 1)
                  skip false lastN' lastNs idx
        else if c = '\\' then
          groupsLoop flags fuel w startN endN ks rest startIdx (delta + 1)
            skip true lastN lastNs idx
        else if c = '*' && skip then
          groupsLoop flags fuel w startN endN ks rest startIdx (delta + 1)
            false false lastN lastNs idx
        else if c = '*' then .error (.invalidKleene idx)
        else if c = '(' then
          let (w1, subEnd) := newNDN w false
          let (w2, ks') := newNDN w1 false
          let w3 := nAdd w2 lastN .eps ks'
          match groupsLoop flags fuel w3 lastN subEnd ks' rest (idx + 1) 0
              false false ks' [] (idx + 1) with
          | .error e => .error e
          | .ok (w4, skip', idx', rest') =>
              groupsLoop flags fuel w4 startN endN ks rest' idx' (delta + 1)
                skip' false subEnd lastNs idx
        else if c = ')' then
          if nxt = some '*' then
            let (w1, e) := kleeneW w startN ks (lastN :: lastNs)
            .ok (nAdd w1 e .eps endN, true, idx, rest)
          else .ok (nAdd w lastN .eps endN, false, idx, rest)
        else if c = '|' then
          groupsLoop flags fuel (nAdd w lastN .eps endN) startN endN ks rest startIdx
            (delta + 1) skip false ks (lastN :: lastNs) idx
        else if c = 'ε' || c = '?' then
          groupsLoop flags fuel w startN endN ks rest startIdx (delta + 1)
            skip false lastN lastNs idx
        else
          let l := if c = 'Σ' || c = '.' then Label.sig else Label.chr c
          if nxt = some '*' then
            match concatW flags (newNDN w false).1 (newNDN w false).2 l with
            | .error e => .error e
            | .ok (w2, endIn) =>
                let (w3, lastN') := kleeneW w2 lastN (newNDN w false).2 [endIn]
                groupsLoop flags fuel w3 startN endN ks rest startIdx (delta + 1)
                  true false lastN' lastNs idx
          else
            match concatW flags w lastN l with
            | .error e => .error e
            | .ok (w2, lastN') =>
                groupsLoop flags fuel w2 startN endN ks rest startIdx (delta + 1)
                  skip false lastN' lastNs idx

/-- `parse(pattern, flags)` (`parse.main`): build start and end nodes, run
    `groups`, and check that the iterator is exhausted.  An empty pattern
    makes the unguarded `next(p2)` raise `StopIteration`; a non-exhausted
    iterator triggers the "Unmatched parenthesis" raise whose swapped
    arguments crash `ParsingError.__init__` with a `TypeError`.  Returns
    the world and the id of the start node. -/
def parseE (pattern : String) (flags : Nat) : Except PErr (World × Nat) :=
  let cs := pattern.toList
  if cs.isEmpty then .error .stopIteration
  else
    let (w1, startN) := newNDN worldInit false
    let (w2, endN) := newNDN w1 true
    let (w3, ks) := newNDN w2 false
    let w4 := nAdd w3 startN .eps ks
    match groupsLoop flags (2 * cs.length + 4) w4 startN endN ks (mkPairs cs) 0 0
        false false ks [] 0 with
    | .error e => .error e
    | .ok (w, _, _, rest) =>
        if rest.isEmpty then .ok (w, startN)
        else .error .unmatchedParenTypeError

/-! ## Subset construction (`DFA.from_ndfa`) -/

/-- Saturating read of `DFA.from_ndfa`: `targets = node.read(char)` returns
    the stored set object and `nda._expand(targets)` then mutates it in
    place, so the NFA edge becomes ε-closure saturated.  A missing label
    yields a fresh empty set and no mutation. -/
def readExpand (w : World) (i : Nat) (l : Label) : World × List Nat :=
  match alookup l (getN w i).trans with
  | none => (w, [])
  | some tgts =>
      let sat := closureW w tgts
      (nSetEdge w i l sat, sat)

/-- Outgoing alphabet of a subset: all labels on its nodes except ε
    (Python iterates a hash set; the model uses sorted order). -/
def subsetAlphabet (w : World) (cur : List Nat) : List Label :=
  (cur.foldl (fun acc n => unionLabels ((getN w n).trans.map (·.1)) acc) []).filter
    (· ≠ Label.eps)

/-- Fill one derivation-table row: for each label, the ε-closed union of
    the member nodes' targets; cells absent from the table keys are marked
    for pushing (Python checks membership against the table only, so the
    same new cell produced by two labels is pushed twice — reprocessing is
    idempotent). -/
def buildRow (w : World) (cur : List Nat) (keys : List (List Nat)) :
    List Label → World × List (Label × List Nat) × List (List Nat)
  | [] => (w, [], [])
  | l :: rest =>
      let step := cur.foldl
        (fun (p : World × List Nat) n =>
          let (w2, sat) := readExpand p.1 n l
          (w2, unionNat sat p.2)) (w, [])
      let (w3, row, pushes) := buildRow step.1 cur keys rest
      let cell := step.2
      ((w3, (l, cell) :: row, if keys.contains cell then pushes else cell :: pushes))

/-- Worklist of `DFA.from_ndfa`: pop a subset, record an empty row for it,
    fill the row, push the unseen cells. -/
def subsetLoop (w : World) (stack : List (List Nat))
    (table : List (List Nat × List (Label × List Nat))) :
    Nat → Option (World × List (List Nat × List (Label × List Nat)))
  | 0 => none
  | fuel + 1 =>
      match stack with
      | [] => some (w, table)
      | cur :: rest =>
          let alpha := subsetAlphabet w cur
          let table1 := aupdate cur [] table
          let keys := table1.map (·.1)
          let (w1, row, pushes) := buildRow w cur keys alpha
          subsetLoop w1 (pushes ++ rest) (aupdate cur row table1) fuel

/-- Create one fresh deterministic node per derivation-table subset, final
    iff the subset contains a final NFA node (table insertion order). -/
def allocDNs (w : World) : List (List Nat × List (Label × List Nat)) →
    World × List (List Nat × Nat)
  | [] => (w, [])
  | (cell, _) :: rest =>
      let fin := cell.any (fun n => (getN w n).isFinal)
      let (w1, dn) := newDN w fin
      let (w2, m) := allocDNs w1 rest
      (w2, (cell, dn) :: m)

/-- Link the fresh deterministic nodes along the derivation table. -/
def linkDNs (w : World) (m : List (List Nat × Nat)) :
    List (List Nat × List (Label × List Nat)) → World
  | [] => w
  | (cell, row) :: rest =>
      let dn := (alookup cell m).getD 0
      let w1 := row.foldl
        (fun wa (p : Label × List Nat) => dAdd wa dn p.1 ((alookup p.2 m).getD 0)) w
      linkDNs w1 m rest

/-- `DFA.from_ndfa(nda)`: subset construction with ε-closure; returns the
    world extended with the fresh deterministic nodes and the id of the
    initial deterministic node. -/
def dfaFromNdfa (w : World) (init : Nat) (fuel : Nat) : Option (World × Nat) :=
  let initial := closureW w [init]
  match subsetLoop w [initial] [] fuel with
  | none => none
  | some (w1, table) =>
      let (w2, m) := allocDNs w1 table
      some (linkDNs w2 m table, (alookup initial m).getD 0)

/-! ## Completion (`DCFA.from_dfa`) and deterministic matching -/

/-- Model of `node.transitions.setdefault(SIGMA, trap_node)`: append a Σ
    edge to the module trap node (id 0) unless a Σ edge already exists. -/
def addSigIfMissing (w : World) (i : Nat) : World :=
  let nd := getD w i
  match alookup Label.sig nd.trans with
  | some _ => w
  | none =>
      ⟨w.counter, w.nmap,
        aupdate i (⟨nd.isFinal, nd.trans ++ [(Label.sig, 0)]⟩ : DNode) w.dmap⟩

/-- Transition targets of a deterministic node (`transitions.values()`). -/
def targetsD (w : World) (i : Nat) : List Nat :=
  (getD w i).trans.map (·.2)

/-- Worklist of `DCFA.from_dfa`: pop a node, discover its unseen targets
    (computed before the Σ edge is added, exactly as in the source), then
    setdefault the Σ edge on the popped node. -/
def completeLoop (fuel : Nat) (w : World) (stack seen : List Nat) : Option World :=
  match stack with
  | [] => some w
  | n :: rest =>
      match fuel with
      | 0 => none
      | f + 1 =>
          let fresh := ((targetsD w n).foldl (fun acc t => insNat t acc) []).filter
            (fun t => !seen.contains t)
          completeLoop f (addSigIfMissing w n) (fresh ++ rest) (unionNat fresh seen)

/-- `DCFA.from_dfa(da)`: complete the automaton in place; the initial node
    is shared with the input DFA. -/
def dcfaFromDfa (w : World) (init : Nat) (fuel : Nat) : Option World :=
  completeLoop fuel w [init] []

/-- `DFA.match(string)`: advance by `read`; an absent transition rejects. -/
def dfaMatch (w : World) (i : Nat) : List Char → Bool
  | [] => (getD w i).isFinal
  | c :: cs =>
      match dnRead (getD w i) c with
      | none => false
      | some j => dfaMatch w j cs

/-- `DCFA.match(string)`: advance by `read`; entering the module trap node
    (the `node is trap_node` identity test, i.e. id 0) rejects immediately.
    The source performs no `None` check here, so an absent transition would
    crash with an `AttributeError`; this is modelled as `none`. -/
def dcfaMatch (w : World) (i : Nat) : List Char → Option Bool
  | [] => some (getD w i).isFinal
  | c :: cs =>
      match dnRead (getD w i) c with
      | none => none
      | some j => if j = 0 then some false else dcfaMatch w j cs

/-- Predicate recording whether the run of `DCFA.match` ever steps into the
    module trap node (id 0), i.e. whether its identity test ever fires. -/
def trapHit (w : World) (i : Nat) : List Char → Bool
  | [] => false
  | c :: cs =>
      match dnRead (getD w i) c with
      | none => false
      | some j => if j = 0 then true else trapHit w j cs

/-! ## Minimization (`DCMFA.from_dcfa`) -/

/-- Node-gathering loop of `DCMFA.from_dcfa`: saturate the set of nodes
    reachable from the initial node through transition targets.  The
    accumulator is kept sorted by id, matching the final
    `sorted(list(dca_nodes), key=lambda n: n.id)`. -/
def gatherLoop (w : World) : Nat → List Nat → List Nat → Option (List Nat)
  | _, acc, [] => some acc
  | 0, _, _ :: _ => none
  | fuel + 1, acc, nw =>
      let tgts := nw.foldl (fun a n => unionNat (targetsD w n) a) []
      let fresh := diffNat tgts acc
      gatherLoop w fuel (unionNat fresh acc) fresh

/-- Reachable nodes of the automaton rooted at `init`, sorted by id. -/
def gatherD (w : World) (init : Nat) (fuel : Nat) : Option (List Nat) :=
  gatherLoop w fuel [init] [init]

/-- Ordered alphabet of the minimizer: sorted concrete labels, Σ last;
    `alphabet.remove(SIGMA)` raises `KeyError` when Σ is absent, modelled
    as `none`. -/
def minAlphabet (w : World) (nodes : List Nat) : Option (List Label) :=
  let labels := nodes.foldl
    (fun acc n => unionLabels ((getD w n).trans.map (·.1)) acc) []
  if labels.contains Label.sig then
    some ((labels.filter (· ≠ Label.sig)) ++ [Label.sig])
  else none

/-- Transition part of a node's refinement signature: for each alphabet
    position, `class(target) * system ^ (rank + 1)` when the raw transition
    table has an entry for that label (no Σ fallback here — the source uses
    `transitions.get(char)`). -/
def derivTrans (w : World) (cls : List (Nat × Nat)) (system n : Nat) :
    List Label → Nat → Option Nat
  | [], _ => some 0
  | l :: rest, rank =>
      let restSum := derivTrans w cls system n rest (rank + 1)
      match alookup l (getD w n).trans with
      | none => restSum
      | some t =>
          match alookup t cls with
          | none => none
          | some ct => restSum.map (· + ct * system ^ (rank + 1))

/-- Refinement signatures of all nodes, in node order. -/
def derivAll (w : World) (cls : List (Nat × Nat)) (alpha : List Label)
    (system : Nat) : List Nat → Option (List (Nat × Nat))
  | [] => some []
  | n :: rest =>
      match alookup n cls with
      | none => none
      | some own =>
          match derivTrans w cls system n alpha 0 with
          | none => none
          | some s =>
              match derivAll w cls alpha system rest with
              | none => none
              | some tail => some ((n, own + s) :: tail)

/-- Re-number signatures by first appearance, starting from 1; also returns
    the final value of `system` (distinct-class count plus one). -/
def assignLoop : List (Nat × Nat) → List (Nat × Nat) → Nat →
    List (Nat × Nat) × Nat
  | [], _, sys => ([], sys)
  | (n, d) :: rest, ids, sys =>
      match alookup d ids with
      | some cid =>
          let (tail, sys') := assignLoop rest ids sys
          ((n, cid) :: tail, sys')
      | none =>
          let (tail, sys') := assignLoop rest ((d, sys) :: ids) (sys + 1)
          ((n, sys) :: tail, sys')

/-- Initial partition: non-final nodes get class 1, final nodes class 2
    (`int(node.is_final) + 1`). -/
def initCls (w : World) (nodes : List Nat) : List (Nat × Nat) :=
  nodes.map (fun n => (n, if (getD w n).isFinal then 2 else 1))

/-- Signature-refinement loop, iterated to the fixed point. -/
def refineLoop (w : World) (alpha : List Label) (nodes : List Nat) :
    Nat → List (Nat × Nat) → Nat → Option (List (Nat × Nat))
  | 0, _, _ => none
  | fuel + 1, cls, system =>
      match derivAll w cls alpha system nodes with
      | none => none
      | some ders =>
          let (newCls, sys') := assignLoop ders [] 1
          if newCls = cls then some cls
          else refineLoop w alpha nodes fuel newCls sys'

/-- Node creation of `DCMFA.from_dcfa`: one fresh deterministic node per
    input node (`{dca_to_id[node]: DN(node.is_final) for node in dca_nodes}`);
    the class map keeps the node of the last member of each class. -/
def allocMin (w : World) (cls : List (Nat × Nat)) (m : List (Nat × Nat)) :
    List Nat → Option (World × List (Nat × Nat))
  | [] => some (w, m)
  | n :: rest =>
      match alookup n cls with
      | none => none
      | some cid =>
          let (w1, dn) := newDN w (getD w n).isFinal
          allocMin w1 cls (aupdate cid dn m) rest

/-- Copy the transitions of one class representative onto its fresh node,
    mapping every target through the class map. -/
def linkOne (cls m : List (Nat × Nat)) (dn : Nat) (w : World) :
    List (Label × Nat) → Option World
  | [] => some w
  | (l, t) :: rest =>
      match alookup t cls with
      | none => none
      | some ct =>
          match alookup ct m with
          | none => none
          | some mt => linkOne cls m dn (dAdd w dn l mt) rest

/-- Linking loop of `DCMFA.from_dcfa`: the first node of each class (in id
    order) provides the transitions of the class's fresh node. -/
def linkAll (cls m : List (Nat × Nat)) (w : World) (seen : List Nat) :
    List Nat → Option World
  | [] => some w
  | n :: rest =>
      match alookup n cls with
      | none => none
      | some cid =>
          if seen.contains cid then linkAll cls m w seen rest
          else
            match alookup cid m with
            | none => none
            | some dn =>
                match linkOne cls m dn w (getD w n).trans with
                | none => none
                | some w1 => linkAll cls m w1 (cid :: seen) rest

/-- `DCMFA.from_dcfa(dca)`: gather reachable nodes, refine the partition to
    a fixed point, build and link fresh nodes, and return the fresh node of
    the initial node's class. -/
def dcmfaFromDcfa (w : World) (init : Nat) (fuel : Nat) : Option (World × Nat) :=
  match gatherD w init fuel with
  | none => none
  | some nodes =>
      match minAlphabet w nodes with
      | none => none
      | some alpha =>
          match refineLoop w alpha nodes fuel (initCls w nodes) 3 with
          | none => none
          | some cls =>
              match allocMin w cls [] nodes with
              | none => none
              | some (w1, m) =>
                  match linkAll cls m w1 [] nodes with
                  | none => none
                  | some w2 =>
                      match alookup init cls with
                      | none => none
                      | some cid => (alookup cid m).map (fun minit => (w2, minit))

/-! ## Pattern expander (`regexp/pattern.py`, functions `escape`/`expand`) -/

/-- `escape(pattern)`: prefix a backslash to every metacharacter. -/
def escapeP : List Char → List Char
  | [] => []
  | c :: cs =>
      if c ∈ ['*', '\\', '|', 'ε', '?', '(', ')', 'Σ', '.'] then
        '\\' :: c :: escapeP cs
      else c :: escapeP cs

/-- Exceptions that `expand` can raise: a `TypeError` (from `ord(None)` on
    a dangling range, or from joining `None`) or an `AttributeError` (from
    calling `append`/`extend` after the `expansion` variable was clobbered
    by the shorthand branch with a string or `None`). -/
inductive EErr where
  | typeError : EErr
  | attributeError : EErr
deriving DecidableEq, Repr

/-- Value of `expand`'s `expansion` variable: a list of alternatives, a
    string left behind by the shorthand branch, or `None`. -/
inductive ExpState where
  | lst (xs : List (List Char)) : ExpState
  | strv (xs : List (List Char)) : ExpState
  | nonev : ExpState
deriving DecidableEq, Repr

/-- The `(char, next_char, next_next_char)` stream of `expand`. -/
def mkTriples : List Char → List (Char × Option Char × Option Char)
  | [] => []
  | c :: cs => (c, cs.head?, cs.tail.head?) :: mkTriples cs

/-- `"|".join(expansion)`. -/
def joinBar : List (List Char) → List Char
  | [] => []
  | [x] => x
  | x :: rest => x ++ '|' :: joinBar rest

/-- Alternatives of a codepoint range `[a-b]` (inclusive, empty when the
    endpoints are reversed), each metacharacter-escaped. -/
def rangeChars (a b : Nat) : List (List Char) :=
  (List.range (b + 1 - a)).map (fun k => escapeP [Char.ofNat (a + k)])

/-- Main loop of `expand` over the three-character window. -/
def expandGo (tokens : Char → Option (List Char)) :
    List (Char × Option Char × Option Char) → Nat → Bool → Bool → ExpState →
    List Char → Except EErr (List Char)
  | [], _, _, _, _, out => .ok out
  | (c, nxt, nxt2) :: rest, skip, esc, expanding, expansion, out =>
      if skip ≠ 0 then expandGo tokens rest (skip - 1) esc expanding expansion out
      else if expanding then
        if esc then
          match expansion with
          | .lst xs => expandGo tokens rest 0 false true (.lst (xs ++ [[c]])) out
          | _ => .error .attributeError
        else if c = '\\' then expandGo tokens rest 0 true true expansion out
        else if nxt = some '-' then
          match nxt2 with
          | none => .error .typeError
          | some d =>
              match expansion with
              | .lst xs =>
                  expandGo tokens rest 2 false true
                    (.lst (xs ++ rangeChars c.toNat d.toNat)) out
              | _ => .error .attributeError
        else if c = ']' then
          match expansion with
          | .lst xs =>
              expandGo tokens rest 0 false false (.lst [])
                (out ++ '(' :: (joinBar xs ++ [')']))
          | .strv xs =>
              expandGo tokens rest 0 false false (.lst [])
                (out ++ '(' :: (joinBar xs ++ [')']))
          | .nonev => .error .typeError
        else
          match expansion with
          | .lst xs => expandGo tokens rest 0 false true (.lst (xs ++ [escapeP [c]])) out
          | _ => .error .attributeError
      else if esc then expandGo tokens rest 0 false false expansion (out ++ [c])
      else if c = '\\' then
        match nxt with
        | some ch =>
            match tokens ch with
            | some str =>
                expandGo tokens rest 1 false false (.strv (str.map (fun x => [x])))
                  (out ++ str)
            | none => expandGo tokens rest 0 true false .nonev (out ++ [c])
        | none => expandGo tokens rest 0 true false .nonev (out ++ [c])
      else if c = '[' then expandGo tokens rest 0 false true expansion out
      else expandGo tokens rest 0 false false expansion (out ++ [c])

/-- `expand` parameterized by the shorthand-token table. -/
def expandE (tokens : Char → Option (List Char)) (p : List Char) :
    Except EErr (List Char) :=
  expandGo tokens (mkTriples p) 0 false false (.lst []) []

/-- Empty token table, in effect while the module-level `_tokens` dict
    literal is still being evaluated. -/
def tokensNone : Char → Option (List Char) := fun _ => none

/-- `_tokens["d"] = expand(r"[0-9]")`. -/
def tokenD : List Char := (expandE tokensNone "[0-9]".toList).toOption.getD []

/-- `_tokens["w"] = expand(r"[a-zA-Z0-9_]")`. -/
def tokenW : List Char := (expandE tokensNone "[a-zA-Z0-9_]".toList).toOption.getD []

/-- `_tokens["s"]`. -/
def tokenS : List Char := "( |\n|\r|\t)".toList

/-- The complete module-level `_tokens` table. -/
def tokensFull : Char → Option (List Char) := fun c =>
  if c = 's' then some tokenS
  else if c = 'd' then some tokenD
  else if c = 'w' then some tokenW
  else none

/-- `expand(extended_pattern)` with the full token table. -/
def expandP (p : String) : Except EErr String :=
  (expandE tokensFull p.toList).map (fun cs => String.mk cs)

/-! ## Full compilation chain and derived checkers -/

/-- The compilation chain `NDA.from_pattern; DA.from_nda; DCA.from_da;
    DCMA.from_dca` (`regexp/compile.py`, `regexp/tests.py`).  Returns the
    final world together with the NFA, DFA and minimized initial node ids
    (completion keeps the DFA's initial node). -/
def pipelineFull (p : String) (flags fuel : Nat) :
    Option (World × Nat × Nat × Nat) :=
  match parseE p flags with
  | .error _ => none
  | .ok (w, nfaInit) =>
      match dfaFromNdfa w nfaInit fuel with
      | none => none
      | some (w1, dfaInit) =>
          match dcfaFromDfa w1 dfaInit fuel with
          | none => none
          | some w2 =>
              match dcmfaFromDcfa w2 dfaInit fuel with
              | none => none
              | some (w3, minInit) => some (w3, nfaInit, dfaInit, minInit)

/-- Evaluate one string at all four pipeline stages: NFA match, DFA match,
    completed-DFA match, minimized-DFA match. -/
def matchAllStages (p s : String) (flags fuel : Nat) :
    Option (Bool × Bool × Option Bool × Option Bool) :=
  match pipelineFull p flags fuel with
  | none => none
  | some (w, ni, di, mi) =>
      some (nfaMatch w ni s.toList, dfaMatch w di s.toList,
        dcfaMatch w di s.toList, dcfaMatch w mi s.toList)

/-- Raw refinement signature of a state: finality plus, for each position
    of the ordered alphabet, the raw transition-table entry. -/
def rawSig (w : World) (alpha : List Label) (i : Nat) : Bool × List (Option Nat) :=
  ((getD w i).isFinal, alpha.map (fun l => alookup l (getD w i).trans))

/-- Check that the raw signatures of the listed states are pairwise
    distinct. -/
def pairwiseDistinctSigs (w : World) (alpha : List Label) : List Nat → Bool
  | [] => true
  | i :: rest =>
      rest.all (fun j => decide (rawSig w alpha i ≠ rawSig w alpha j)) &&
        pairwiseDistinctSigs w alpha rest

/-- Reachable-state count of the minimized automaton of a pattern, paired
    with the pairwise-distinctness of the raw signatures of those states
    over the minimizer's ordered alphabet. -/
def minSigCheck (p : String) (fuel : Nat) : Option (Nat × Bool) :=
  match pipelineFull p 0 fuel with
  | none => none
  | some (w, _, _, mi) =>
      match gatherD w mi fuel with
      | none => none
      | some nodes =>
          match minAlphabet w nodes with
          | none => none
          | some alpha => some (nodes.length, pairwiseDistinctSigs w alpha nodes)

/-- Two states accept exactly the same input suffixes (no suffix is
    accepted from exactly one of them). -/
def sameLang (w : World) (i j : Nat) : Prop :=
  ∀ s : List Char, dfaMatch w i s = dfaMatch w j s

/-- A deterministic node has a Σ entry in its raw transition table. -/
def hasSigB (w : World) (i : Nat) : Bool :=
  (alookup Label.sig (getD w i).trans).isSome

/-- Reachability along raw transition-table targets of deterministic
    nodes, starting from the initial node. -/
inductive ReachD (w : World) (init : Nat) : Nat → Prop
  | refl : ReachD w init init
  | step {i j : Nat} {l : Label} :
      ReachD w init i → (l, j) ∈ (getD w i).trans → ReachD w init j

/-! ## Prefix-read operations

The methods `read_lazy` and `read_greedy` are referenced by the test suite
(`tests/test_automaton.py`) and by the experimental tokenizer, but no
automaton class under `regexp/` defines them; they are modelled here from
the specification (§4.7 and the §9 reconciliation: lazy = shortest
accepting prefix, greedy = longest accepting prefix, 0 when no prefix is
accepted).  Entering the trap cannot contribute further accepting
prefixes — the trap state is non-final and absorbing — so the plain
smallest/largest-accepting-prefix form below coincides with the loops
described in §4.7. -/

/-- Modelled from the spec: helper of `read_lazy`; `k` is the number of
    symbols consumed so far. -/
def lazyAux (w : World) : Nat → List Char → Nat → Nat
  | i, [], k => if (getD w i).isFinal then k else 0
  | i, c :: cs, k =>
      if (getD w i).isFinal then k
      else
        match dnRead (getD w i) c with
        | none => 0
        | some j => lazyAux w j cs (k + 1)

/-- Modelled from the spec: `read_lazy(s)` — the smallest prefix length at
    which the run is in a final state, 0 if there is none. -/
def readLazy (w : World) (init : Nat) (s : List Char) : Nat :=
  lazyAux w init s 0

/-- Modelled from the spec: helper of `read_greedy`; `best` is the largest
    accepting prefix length seen so far. -/
def greedyAux (w : World) : Nat → List Char → Nat → Nat → Nat
  | i, [], k, best => if (getD w i).isFinal then k else best
  | i, c :: cs, k, best =>
      let best' := if (getD w i).isFinal then k else best
      match dnRead (getD w i) c with
      | none => best'
      | some j => greedyAux w j cs (k + 1) best'

/-- Modelled from the spec: `read_greedy(s)` — the largest prefix length at
    which the run is in a final state, 0 if there is none. -/
def readGreedy (w : World) (init : Nat) (s : List Char) : Nat :=
  greedyAux w init s 0 0

/-! ## Concrete stage worlds for the pattern `Σ*a` -/

/-- Thompson NFA of the pattern `Σ*a` (start node has id 1). -/
def saParse : World × Nat :=
  match parseE "Σ*a" 0 with
  | .ok p => p
  | .error _ => (worldInit, 0)

/-- World after parsing `Σ*a`, before determinization. -/
def saW0 : World := saParse.1

/-- World and initial node after determinizing the NFA of `Σ*a`. -/
def saDfa : World × Nat := (dfaFromNdfa saW0 saParse.2 100).getD (saW0, 0)

/-- World after completing the DFA of `Σ*a` (in-place on `saDfa`). -/
def saW2 : World := (dcfaFromDfa saDfa.1 saDfa.2 100).getD saDfa.1

/-- World and initial node after minimizing the completed DFA of `Σ*a`. -/
def saMin : World × Nat := (dcmfaFromDcfa saW2 saDfa.2 100).getD (saW2, 0)

/-! ## Concrete minimized automaton for the pattern `x(a|Σ)|yΣ` -/

/-- Full pipeline for the pattern `x(a|Σ)|yΣ`, whose minimized automaton
    contains two distinct reachable states with identical behavior. -/
def cexPipe : Option (World × Nat × Nat × Nat) := pipelineFull "x(a|Σ)|yΣ" 0 100

/-- Final world of the `x(a|Σ)|yΣ` pipeline. -/
def cexW : World :=
  match cexPipe with
  | some (w, _, _, _) => w
  | none => worldInit

/-- Initial node of the minimized automaton of `x(a|Σ)|yΣ`. -/
def cexMi : Nat :=
  match cexPipe with
  | some (_, _, _, mi) => mi
  | none => 0

/-- `NDFA.from_pattern(pattern, flags)`: builds the NFA via `parse` but
    passes `flags=0`, discarding the caller's flags (`automatons.py`,
    `return cls(parse(pattern, flags=0))`). -/
def ndfaFromPattern (p : String) (_flags : Nat) : Except PErr (World × Nat) :=
  parseE p 0

/-- Parse a pattern and match one string with the resulting NFA (`none`
    when parsing raised an exception). -/
def parseMatch (p : String) (flags : Nat) (s : String) : Option Bool :=
  match parseE p flags with
  | .ok (w, i) => some (nfaMatch w i s.toList)
  | .error _ => none

/-- Match one string with the NFA produced by `NDFA.from_pattern`. -/
def fromPatternMatch (p : String) (flags : Nat) (s : String) : Option Bool :=
  match ndfaFromPattern p flags with
  | .ok (w, i) => some (nfaMatch w i s.toList)
  | .error _ => none

/-- The NFA that `parse` builds for a one-character literal pattern (start
    node 1, final node 2, `kleene_start` 3, literal successor 4). -/
def litW (c : Char) : World :=
  ⟨5, [(1, ⟨false, [(Label.eps, [3])]⟩), (2, ⟨true, []⟩),
       (3, ⟨false, [(Label.chr c, [4])]⟩), (4, ⟨false, [(Label.eps, [2])]⟩)],
   [(0, trapNode)]⟩

/-! ## Well-formedness predicates used by the general theorems -/

/-- Every deterministic-store key is below the id counter (true of every
    world the pipeline produces, since ids are handed out by the counter). -/
def dmapWf (w : World) : Prop := ∀ p ∈ w.dmap, p.1 < w.counter

/-- Invariant of the completion worklist: every discovered node that is no
    longer on the stack already has its Σ transition, and all its targets
    are discovered (or are the trap node added by `setdefault`). -/
def complInv (w : World) (init : Nat) (stack seen : List Nat) : Prop :=
  ∀ m, (m = init ∨ m ∈ seen) → m ∉ stack →
    hasSigB w m = true ∧ ∀ t ∈ targetsD w m, t ∈ seen ∨ t = 0

/-- Raw refinement digit of a node at one label: `none` when the raw
    transition table has no entry for the label, otherwise the class of
    the raw target (`transitions.get(char)` in the source). -/
def digitOpt (w : World) (cls : List (Nat × Nat)) (n : Nat) (l : Label) :
    Option Nat :=
  match alookup l (getD w n).trans with
  | none => none
  | some t => alookup t cls

/-- All members of one refinement class share finality. -/
def FinP (w : World) (cls : List (Nat × Nat)) : Prop :=
  ∀ x y v, alookup x cls = some v → alookup y cls = some v →
    (getD w x).isFinal = (getD w y).isFinal

/-- Distinct refinement classes are separated by finality or by a raw
    transition digit at some alphabet label. -/
def InvP (w : World) (alpha : List Label) (cls : List (Nat × Nat)) : Prop :=
  ∀ x y vx vy, alookup x cls = some vx → alookup y cls = some vy → vx ≠ vy →
    (getD w x).isFinal ≠ (getD w y).isFinal ∨
      ∃ l ∈ alpha, digitOpt w cls x l ≠ digitOpt w cls y l

/-- Every deterministic node's transition table has pairwise-distinct
    labels (true of every world the pipeline produces, since the tables
    model Python dicts). -/
def transWf (w : World) : Prop :=
  ∀ p ∈ w.dmap, ((p.2.trans.map Prod.fst).Nodup)


/-! # Lemmas: canonical sets and association lists -/

theorem insNat_mem {a n : Nat} {xs : List Nat} :
    a ∈ insNat n xs ↔ a = n ∨ a ∈ xs := by
  induction xs with
  | nil => simp [insNat]
  | cons x rest ih =>
      by_cases h1 : n = x
      · subst h1
        have he : insNat n (n :: rest) = n :: rest := by simp [insNat]
        rw [he]
        simp only [List.mem_cons]
        tauto
      · by_cases h2 : n < x
        · rw [insNat, if_neg h1, if_pos h2]
          simp only [List.mem_cons]
        · rw [insNat, if_neg h1, if_neg h2]
          simp only [List.mem_cons, ih]
          tauto

theorem unionNat_mem {a : Nat} : ∀ {xs acc : List Nat},
    a ∈ unionNat xs acc ↔ a ∈ xs ∨ a ∈ acc := by
  intro xs
  induction xs with
  | nil => intro acc; simp [unionNat]
  | cons x rest ih =>
      intro acc
      simp only [unionNat, ih, insNat_mem, List.mem_cons]
      tauto

theorem alookup_mem {α β : Type} [DecidableEq α] {k : α} {v : β} :
    ∀ {l : List (α × β)}, alookup k l = some v → (k, v) ∈ l := by
  intro l
  induction l with
  | nil => intro h; simp [alookup] at h
  | cons p rest ih =>
      rcases p with ⟨a, b⟩
      intro h
      simp only [alookup] at h
      by_cases hk : a = k
      · subst hk
        rw [if_pos rfl] at h
        injection h with h
        subst h
        exact List.mem_cons_self _ _
      · rw [if_neg hk] at h
        exact List.mem_cons_of_mem _ (ih h)

theorem mem_aupdate {α β : Type} [DecidableEq α] {k : α} {v : β} {p : α × β} :
    ∀ {l : List (α × β)}, p ∈ aupdate k v l → p = (k, v) ∨ p ∈ l := by
  intro l
  induction l with
  | nil => intro h; simp [aupdate] at h; left; exact h
  | cons q rest ih =>
      intro h
      rcases q with ⟨a, b⟩
      simp only [aupdate] at h
      by_cases hk : a = k
      · rw [if_pos hk] at h
        rcases List.mem_cons.mp h with h1 | h1
        · left; exact h1
        · right; exact List.mem_cons_of_mem _ h1
      · rw [if_neg hk] at h
        rcases List.mem_cons.mp h with h1 | h1
        · right; exact List.mem_cons.mpr (Or.inl h1)
        · rcases ih h1 with h2 | h2
          · left; exact h2
          · right; exact List.mem_cons_of_mem _ h2

theorem alookup_aupdate_self {α β : Type} [DecidableEq α] {k : α} {v : β} :
    ∀ {l : List (α × β)}, alookup k (aupdate k v l) = some v := by
  intro l
  induction l with
  | nil => simp [aupdate, alookup]
  | cons q rest ih =>
      rcases q with ⟨a, b⟩
      simp only [aupdate]
      by_cases hk : a = k
      · rw [if_pos hk]; simp [alookup]
      · rw [if_neg hk]; simp only [alookup, if_neg hk]; exact ih

theorem alookup_aupdate_ne {α β : Type} [DecidableEq α] {k k' : α} {v : β}
    (h : k' ≠ k) : ∀ {l : List (α × β)},
    alookup k' (aupdate k v l) = alookup k' l := by
  intro l
  induction l with
  | nil =>
      simp only [aupdate, alookup]
      rw [if_neg (Ne.symm h)]
  | cons q rest ih =>
      rcases q with ⟨a, b⟩
      by_cases hk : a = k
      · subst hk
        simp only [aupdate, if_pos rfl, alookup]
        rw [if_neg (Ne.symm h), if_neg (Ne.symm h)]
      · simp only [aupdate, if_neg hk, alookup]
        by_cases ha : a = k'
        · rw [if_pos ha, if_pos ha]
        · rw [if_neg ha, if_neg ha]; exact ih

theorem alookup_append_of_none {α β : Type} [DecidableEq α] {k : α}
    {xs ys : List (α × β)} (h : alookup k xs = none) :
    alookup k (xs ++ ys) = alookup k ys := by
  induction xs with
  | nil => simp
  | cons q rest ih =>
      rcases q with ⟨a, b⟩
      simp only [alookup] at h ⊢
      by_cases hk : a = k
      · rw [if_pos hk] at h; cases h
      · rw [if_neg hk] at h ⊢
        exact ih h

theorem alookup_append_some {α β : Type} [DecidableEq α] {k : α} {v : β}
    {xs ys : List (α × β)} (h : alookup k xs = some v) :
    alookup k (xs ++ ys) = some v := by
  induction xs with
  | nil => simp [alookup] at h
  | cons q rest ih =>
      rcases q with ⟨a, b⟩
      simp only [alookup] at h ⊢
      by_cases hk : a = k
      · rw [if_pos hk] at h ⊢; exact h
      · rw [if_neg hk] at h ⊢; exact ih h

theorem alookup_aupdate_isSome {α β : Type} [DecidableEq α] {k k' : α} {v : β}
    {l : List (α × β)} (h : (alookup k l).isSome = true) :
    (alookup k (aupdate k' v l)).isSome = true := by
  by_cases hk : k = k'
  · subst hk; rw [alookup_aupdate_self]; rfl
  · rw [alookup_aupdate_ne hk]; exact h

/-! # Lemmas: world operations -/

theorem getD_dAdd_ne {w : World} {i j : Nat} {l : Label} {t : Nat} (h : j ≠ i) :
    getD (dAdd w i l t) j = getD w j := by
  simp only [getD, dAdd, alookup_aupdate_ne h]

theorem getD_dAdd_self {w : World} {i : Nat} {l : Label} {t : Nat} :
    getD (dAdd w i l t) i =
      ⟨(getD w i).isFinal, aupdate l t (getD w i).trans⟩ := by
  simp only [getD, dAdd, alookup_aupdate_self, Option.getD_some]

theorem hasSigB_dAdd_mono {w : World} {i j : Nat} {l : Label} {t : Nat}
    (h : hasSigB w j = true) : hasSigB (dAdd w i l t) j = true := by
  by_cases hij : j = i
  · subst hij
    simp only [hasSigB, getD_dAdd_self] at h ⊢
    exact alookup_aupdate_isSome h
  · simp only [hasSigB, getD_dAdd_ne hij]
    exact h

theorem nmap_dAdd {w : World} {i : Nat} {l : Label} {t : Nat} :
    (dAdd w i l t).nmap = w.nmap := rfl

theorem counter_dAdd {w : World} {i : Nat} {l : Label} {t : Nat} :
    (dAdd w i l t).counter = w.counter := rfl

theorem getD_addSig_ne {w : World} {i j : Nat} (h : j ≠ i) :
    getD (addSigIfMissing w i) j = getD w j := by
  simp only [addSigIfMissing]
  split
  · rfl
  · simp only [getD, alookup_aupdate_ne h]

theorem getD_addSig_self_none {w : World} {i : Nat}
    (h : alookup Label.sig (getD w i).trans = none) :
    getD (addSigIfMissing w i) i =
      ⟨(getD w i).isFinal, (getD w i).trans ++ [(Label.sig, 0)]⟩ := by
  simp only [addSigIfMissing, h]
  simp only [getD, alookup_aupdate_self, Option.getD_some]

theorem getD_addSig_self_some {w : World} {i : Nat} {t : Nat}
    (h : alookup Label.sig (getD w i).trans = some t) :
    addSigIfMissing w i = w := by
  simp only [addSigIfMissing, h]

theorem hasSigB_addSig_self {w : World} {i : Nat} :
    hasSigB (addSigIfMissing w i) i = true := by
  cases h : alookup Label.sig (getD w i).trans with
  | some t =>
      rw [getD_addSig_self_some h]
      simp [hasSigB, h]
  | none =>
      simp only [hasSigB, getD_addSig_self_none h]
      rw [alookup_append_of_none h]
      simp [alookup]

theorem hasSigB_addSig_mono {w : World} {i j : Nat}
    (h : hasSigB w j = true) : hasSigB (addSigIfMissing w i) j = true := by
  by_cases hij : j = i
  · subst hij; exact hasSigB_addSig_self
  · rw [hasSigB, getD_addSig_ne hij]; exact h

theorem targetsD_addSig_self {w : World} {i t : Nat}
    (h : t ∈ targetsD (addSigIfMissing w i) i) : t ∈ targetsD w i ∨ t = 0 := by
  cases hs : alookup Label.sig (getD w i).trans with
  | some u =>
      rw [getD_addSig_self_some hs] at h
      left; exact h
  | none =>
      rw [targetsD, getD_addSig_self_none hs] at h
      simp only [List.map_append, List.mem_append] at h
      rcases h with h | h
      · left; exact h
      · right; simpa using h

theorem targetsD_addSig_ne {w : World} {i j : Nat} (h : j ≠ i) :
    targetsD (addSigIfMissing w i) j = targetsD w j := by
  rw [targetsD, getD_addSig_ne h, targetsD]

theorem getD_addSig_trap {w : World} {i : Nat} (h : getD w 0 = trapNode) :
    getD (addSigIfMissing w i) 0 = trapNode := by
  by_cases hi : i = 0
  · subst hi
    have hs : alookup Label.sig (getD w 0).trans = some 0 := by
      rw [h]; rfl
    rw [getD_addSig_self_some hs]; exact h
  · rw [getD_addSig_ne (fun hh => hi hh.symm)]; exact h

/-! # Lemmas: prefix reads -/

theorem greedyAux_ge_best (w : World) :
    ∀ (s : List Char) (i k best : Nat), best ≤ k →
      best ≤ greedyAux w i s k best := by
  intro s
  induction s with
  | nil =>
      intro i k best h
      simp only [greedyAux]
      split
      · exact h
      · exact le_refl best
  | cons c cs ih =>
      intro i k best h
      simp only [greedyAux]
      cases hf : (getD w i).isFinal with
      | true =>
          simp only [hf, if_true]
          cases hr : dnRead (getD w i) c with
          | none => simp only [hr]; exact h
          | some j =>
              simp only [hr]
              exact le_trans h (ih j (k + 1) k (Nat.le_succ k))
      | false =>
          simp only [hf, Bool.false_eq_true, if_false]
          cases hr : dnRead (getD w i) c with
          | none => simp only [hr]; exact le_refl best
          | some j =>
              simp only [hr]
              exact ih j (k + 1) best (le_trans h (Nat.le_succ k))

theorem greedyAux_le (w : World) :
    ∀ (s : List Char) (i k best : Nat), best ≤ k →
      greedyAux w i s k best ≤ k + s.length := by
  intro s
  induction s with
  | nil =>
      intro i k best h
      simp only [greedyAux, List.length_nil, Nat.add_zero]
      split
      · exact le_refl k
      · exact h
  | cons c cs ih =>
      intro i k best h
      simp only [greedyAux, List.length_cons]
      cases hf : (getD w i).isFinal with
      | true =>
          simp only [hf, if_true]
          cases hr : dnRead (getD w i) c with
          | none => simp only [hr]; exact Nat.le_add_right _ _
          | some j =>
              simp only [hr]
              have := ih j (k + 1) k (Nat.le_succ k)
              omega
      | false =>
          simp only [hf, Bool.false_eq_true, if_false]
          cases hr : dnRead (getD w i) c with
          | none =>
              simp only [hr]
              exact le_trans h (Nat.le_add_right _ _)
          | some j =>
              simp only [hr]
              have := ih j (k + 1) best (le_trans h (Nat.le_succ k))
              omega

theorem lazyAux_le_greedyAux (w : World) :
    ∀ (s : List Char) (i k best : Nat), best ≤ k →
      lazyAux w i s k ≤ greedyAux w i s k best := by
  intro s
  induction s with
  | nil =>
      intro i k best h
      simp only [lazyAux, greedyAux]
      split
      · exact le_refl k
      · exact Nat.zero_le best
  | cons c cs ih =>
      intro i k best h
      simp only [lazyAux, greedyAux]
      cases hf : (getD w i).isFinal with
      | true =>
          simp only [hf, if_true]
          cases hr : dnRead (getD w i) c with
          | none => simp only [hr]; exact le_refl k
          | some j =>
              simp only [hr]
              exact greedyAux_ge_best w cs j (k + 1) k (Nat.le_succ k)
      | false =>
          simp only [hf, Bool.false_eq_true, if_false]
          cases hr : dnRead (getD w i) c with
          | none => simp only [hr]; exact Nat.zero_le best
          | some j =>
              simp only [hr]
              exact ih j (k + 1) best (le_trans h (Nat.le_succ k))

/-! # Lemmas: completion totality -/

theorem containsNat_iff {l : List Nat} {a : Nat} : l.contains a = true ↔ a ∈ l :=
  List.elem_iff

theorem mem_foldl_insNat {a : Nat} : ∀ (l acc : List Nat),
    a ∈ l.foldl (fun acc t => insNat t acc) acc ↔ a ∈ l ∨ a ∈ acc := by
  intro l
  induction l with
  | nil => intro acc; simp
  | cons x rest ih =>
      intro acc
      simp only [List.foldl_cons, ih, insNat_mem, List.mem_cons]
      tauto

theorem completeLoop_trap : ∀ (fuel : Nat) (w : World) (stack seen : List Nat)
    (w' : World), completeLoop fuel w stack seen = some w' →
    getD w 0 = trapNode → getD w' 0 = trapNode := by
  intro fuel
  induction fuel with
  | zero =>
      intro w stack seen w' h htrap
      cases stack with
      | nil =>
          simp only [completeLoop] at h
          injection h with h
          subst h
          exact htrap
      | cons n rest =>
          simp only [completeLoop] at h
          exact Option.noConfusion h
  | succ f ih =>
      intro w stack seen w' h htrap
      cases stack with
      | nil =>
          simp only [completeLoop] at h
          injection h with h
          subst h
          exact htrap
      | cons n rest =>
          simp only [completeLoop] at h
          exact ih _ _ _ _ h (getD_addSig_trap htrap)

theorem completeLoop_inv (init : Nat) : ∀ (fuel : Nat) (w : World)
    (stack seen : List Nat) (w' : World),
    completeLoop fuel w stack seen = some w' →
    complInv w init stack seen →
    ∃ seen', (∀ a ∈ seen, a ∈ seen') ∧ complInv w' init [] seen' := by
  intro fuel
  induction fuel with
  | zero =>
      intro w stack seen w' h hinv
      cases stack with
      | nil =>
          simp only [completeLoop] at h
          injection h with h
          subst h
          exact ⟨seen, fun a ha => ha, hinv⟩
      | cons n rest =>
          simp only [completeLoop] at h
          exact Option.noConfusion h
  | succ f ih =>
      intro w stack seen w' h hinv
      cases stack with
      | nil =>
          simp only [completeLoop] at h
          injection h with h
          subst h
          exact ⟨seen, fun a ha => ha, hinv⟩
      | cons n rest =>
          simp only [completeLoop] at h
          set fresh := ((targetsD w n).foldl (fun acc t => insNat t acc) []).filter
            (fun t => !seen.contains t) with hfresh
          have hfreshmem : ∀ t, t ∈ targetsD w n → t ∉ seen → t ∈ fresh := by
            intro t ht hns
            rw [hfresh]
            refine List.mem_filter.mpr ⟨(mem_foldl_insNat _ _).mpr (Or.inl ht), ?_⟩
            simp only [Bool.not_eq_true']
            cases hcont : seen.contains t with
            | true => exact absurd (containsNat_iff.mp hcont) hns
            | false => rfl
          have hinv' : complInv (addSigIfMissing w n) init (fresh ++ rest)
              (unionNat fresh seen) := by
            intro m hm hnot
            by_cases hmn : m = n
            · subst hmn
              refine ⟨hasSigB_addSig_self, ?_⟩
              intro t ht
              rcases targetsD_addSig_self ht with ht1 | ht1
              · by_cases hts : t ∈ seen
                · left; exact unionNat_mem.mpr (Or.inr hts)
                · left; exact unionNat_mem.mpr (Or.inl (hfreshmem t ht1 hts))
              · right; exact ht1
            · have hm2 : m = init ∨ m ∈ seen := by
                rcases hm with h1 | h1
                · left; exact h1
                · rcases unionNat_mem.mp h1 with h2 | h2
                  · exact absurd (List.mem_append.mpr (Or.inl h2)) hnot
                  · right; exact h2
              have hm3 : m ∉ n :: rest := by
                intro hc
                rcases List.mem_cons.mp hc with h1 | h1
                · exact hmn h1
                · exact hnot (List.mem_append.mpr (Or.inr h1))
              obtain ⟨hsig, htgt⟩ := hinv m hm2 hm3
              refine ⟨hasSigB_addSig_mono hsig, ?_⟩
              intro t ht
              rw [targetsD_addSig_ne hmn] at ht
              rcases htgt t ht with h1 | h1
              · left; exact unionNat_mem.mpr (Or.inr h1)
              · right; exact h1
          obtain ⟨seen', hsub, hfin⟩ := ih _ _ _ _ h hinv'
          refine ⟨seen', ?_, hfin⟩
          intro a ha
          exact hsub a (unionNat_mem.mpr (Or.inr ha))

theorem hasSigB_dnRead_isSome {w : World} {i : Nat} (h : hasSigB w i = true) :
    ∀ c : Char, (dnRead (getD w i) c).isSome = true := by
  intro c
  cases hcc : alookup (Label.chr c) (getD w i).trans with
  | some t => simp [dnRead, hcc]
  | none =>
      simp only [dnRead, hcc]
      simpa [hasSigB] using h

theorem dcfa_total {w : World} {init fuel : Nat} {w' : World}
    (hc : dcfaFromDfa w init fuel = some w')
    (htrap : getD w 0 = trapNode) :
    ∀ i, ReachD w' init i → hasSigB w' i = true := by
  have hbase : complInv w init [init] [] := by
    intro m hm hnot
    rcases hm with h1 | h1
    · subst h1
      exact absurd (List.mem_singleton.mpr rfl) hnot
    · exact absurd h1 (List.not_mem_nil m)
  obtain ⟨seen', _, hfin⟩ := completeLoop_inv init fuel w [init] [] w' hc hbase
  have htrap' : getD w' 0 = trapNode := completeLoop_trap fuel w [init] [] w' hc htrap
  have hsig0 : hasSigB w' 0 = true := by
    simp [hasSigB, htrap', trapNode, alookup]
  have hQ : ∀ i, ReachD w' init i → (i = init ∨ i ∈ seen' ∨ i = 0) := by
    intro i hi
    induction hi with
    | refl => left; rfl
    | @step i j l hprev hmem ih =>
        have hjt : j ∈ targetsD w' i := List.mem_map.mpr ⟨(l, j), hmem, rfl⟩
        rcases ih with h1 | h1 | h1
        · obtain ⟨_, htgt⟩ := hfin i (Or.inl h1) (List.not_mem_nil i)
          rcases htgt j hjt with h2 | h2
          · right; left; exact h2
          · right; right; exact h2
        · obtain ⟨_, htgt⟩ := hfin i (Or.inr h1) (List.not_mem_nil i)
          rcases htgt j hjt with h2 | h2
          · right; left; exact h2
          · right; right; exact h2
        · subst h1
          rw [htrap'] at hmem
          simp only [trapNode, List.mem_singleton, Prod.mk.injEq] at hmem
          right; right; exact hmem.2
  intro i hi
  rcases hQ i hi with h1 | h1 | h1
  · exact (hfin i (Or.inl h1) (List.not_mem_nil i)).1
  · exact (hfin i (Or.inr h1) (List.not_mem_nil i)).1
  · subst h1; exact hsig0

/-! # Lemmas: minimization structure -/

theorem alookup_append_single_ne {α β : Type} [DecidableEq α] {k a : α} {b : β}
    {xs : List (α × β)} (h : a ≠ k) :
    alookup k (xs ++ [(a, b)]) = alookup k xs := by
  cases hx : alookup k xs with
  | some v => exact alookup_append_some hx
  | none =>
      rw [alookup_append_of_none hx]
      simp [alookup, h]

theorem alookup_none_of_lt {w : World} {id : Nat} (hwf : dmapWf w)
    (h : w.counter ≤ id) : alookup id w.dmap = none := by
  cases hx : alookup id w.dmap with
  | none => rfl
  | some v =>
      have := hwf _ (alookup_mem hx)
      omega

theorem hasSigB_lt_counter {w : World} {n : Nat} (hwf : dmapWf w)
    (h : hasSigB w n = true) : n < w.counter := by
  by_contra hc
  rw [hasSigB, getD, alookup_none_of_lt hwf (Nat.le_of_not_lt hc)] at h
  simp [alookup] at h

theorem aupdate_keys_sub {α β : Type} [DecidableEq α] {k : α} {v : β}
    {l : List (α × β)} {x : α} (h : x ∈ (aupdate k v l).map Prod.fst) :
    x = k ∨ x ∈ l.map Prod.fst := by
  rcases List.mem_map.mp h with ⟨p, hp, hx⟩
  rcases mem_aupdate hp with h1 | h1
  · left; rw [← hx, h1]
  · right; exact List.mem_map.mpr ⟨p, h1, hx⟩

theorem aupdate_keys_nodup {α β : Type} [DecidableEq α] {k : α} {v : β} :
    ∀ {l : List (α × β)}, (l.map Prod.fst).Nodup →
    ((aupdate k v l).map Prod.fst).Nodup := by
  intro l
  induction l with
  | nil => intro _; simp [aupdate]
  | cons q rest ih =>
      rcases q with ⟨a, b⟩
      intro hn
      simp only [List.map_cons, List.nodup_cons] at hn
      by_cases hk : a = k
      · subst hk
        have he : aupdate a v ((a, b) :: rest) = (a, v) :: rest := by
          simp [aupdate]
        rw [he]
        simp only [List.map_cons, List.nodup_cons]
        exact hn
      · simp only [aupdate, if_neg hk, List.map_cons, List.nodup_cons]
        refine ⟨?_, ih hn.2⟩
        intro hc
        rcases aupdate_keys_sub hc with h1 | h1
        · exact hk h1
        · exact hn.1 h1

theorem alookup_of_mem_nodup {α β : Type} [DecidableEq α] {k : α} {v : β} :
    ∀ {l : List (α × β)}, (l.map Prod.fst).Nodup → (k, v) ∈ l →
    alookup k l = some v := by
  intro l
  induction l with
  | nil => intro _ h; simp at h
  | cons q rest ih =>
      rcases q with ⟨a, b⟩
      intro hn h
      simp only [List.map_cons, List.nodup_cons] at hn
      rcases List.mem_cons.mp h with h1 | h1
      · injection h1 with h2 h3
        subst h2
        subst h3
        simp [alookup]
      · have hak : a ≠ k := by
          intro hc
          subst hc
          exact hn.1 (List.mem_map.mpr ⟨(a, v), h1, rfl⟩)
        simp only [alookup, if_neg hak]
        exact ih hn.2 h1

theorem allocMin_spec : ∀ (ns : List Nat) (w : World) (cls m : List (Nat × Nat))
    (w1 : World) (m1 : List (Nat × Nat)),
    allocMin w cls m ns = some (w1, m1) →
    w.counter ≤ w1.counter ∧ w1.nmap = w.nmap ∧
    (∀ id, id < w.counter → alookup id w1.dmap = alookup id w.dmap) ∧
    (∀ p ∈ m1, p ∈ m ∨ (w.counter ≤ p.2 ∧ p.2 < w1.counter)) ∧
    (∀ p ∈ m1, p ∈ m ∨ ∃ n ∈ ns, alookup n cls = some p.1) ∧
    ((m.map Prod.fst).Nodup → (m1.map Prod.fst).Nodup) := by
  intro ns
  induction ns with
  | nil =>
      intro w cls m w1 m1 h
      simp only [allocMin] at h
      injection h with h
      injection h with h1 h2
      subst h1
      subst h2
      exact ⟨le_refl _, rfl, fun id _ => rfl, fun p hp => Or.inl hp,
        fun p hp => Or.inl hp, fun hn => hn⟩
  | cons n rest ih =>
      intro w cls m w1 m1 h
      simp only [allocMin] at h
      cases hc : alookup n cls with
      | none => rw [hc] at h; exact Option.noConfusion h
      | some cid =>
          rw [hc] at h
          obtain ⟨hle, hnm, hpres, hmv, hcov, hnd⟩ :=
            ih _ _ _ _ _ h
          simp only [newDN] at hle hnm hpres hmv hcov hnd
          refine ⟨le_trans (Nat.le_succ _) hle, hnm, ?_, ?_, ?_, ?_⟩
          · intro id hid
            rw [hpres id (lt_trans hid (Nat.lt_succ_self _))]
            exact alookup_append_single_ne (by omega)
          · intro p hp
            rcases hmv p hp with h1 | h1
            · rcases mem_aupdate h1 with h2 | h2
              · right
                constructor
                · rw [h2]
                · rw [h2]
                  simp only
                  omega
              · left; exact h2
            · right
              exact ⟨by omega, h1.2⟩
          · intro p hp
            rcases hcov p hp with h1 | h1
            · rcases mem_aupdate h1 with h2 | h2
              · right
                exact ⟨n, List.mem_cons_self _ _, by rw [h2]; exact hc⟩
              · left; exact h2
            · right
              rcases h1 with ⟨n', hn', hcn'⟩
              exact ⟨n', List.mem_cons_of_mem _ hn', hcn'⟩
          · intro hm
            exact hnd (aupdate_keys_nodup hm)

theorem allocMin_fresh_trans : ∀ (ns : List Nat) (w : World)
    (cls m : List (Nat × Nat)) (w1 : World) (m1 : List (Nat × Nat)),
    allocMin w cls m ns = some (w1, m1) → dmapWf w →
    ∀ id, w.counter ≤ id → (getD w1 id).trans = [] := by
  intro ns
  induction ns with
  | nil =>
      intro w cls m w1 m1 h hwf id hid
      simp only [allocMin] at h
      injection h with h
      injection h with h1 h2
      subst h1
      rw [getD, alookup_none_of_lt hwf hid]
      rfl
  | cons n rest ih =>
      intro w cls m w1 m1 h hwf id hid
      simp only [allocMin] at h
      cases hc : alookup n cls with
      | none => rw [hc] at h; exact Option.noConfusion h
      | some cid =>
          rw [hc] at h
          have hwf' : dmapWf
              (⟨w.counter + 1, w.nmap, w.dmap ++ [(w.counter, ⟨(getD w n).isFinal, []⟩)]⟩
                : World) := by
            intro p hp
            rcases List.mem_append.mp hp with h1 | h1
            · have := hwf p h1
              simp only
              omega
            · simp only [List.mem_singleton] at h1
              subst h1
              simp only
              omega
          by_cases hid2 : w.counter + 1 ≤ id
          · exact ih _ _ _ _ _ h hwf' id hid2
          · have hideq : id = w.counter := by omega
            rw [hideq]
            obtain ⟨_, _, hpres, _, _, _⟩ := allocMin_spec _ _ _ _ _ _ h
            rw [getD, hpres w.counter (by show w.counter < w.counter + 1; omega)]
            show ((alookup w.counter
              (w.dmap ++ [(w.counter, (⟨(getD w n).isFinal, []⟩ : DNode))])).getD
                ⟨false, []⟩).trans = []
            rw [alookup_append_of_none (alookup_none_of_lt hwf (le_refl _))]
            simp [alookup]

theorem linkOne_spec : ∀ (ts : List (Label × Nat)) (cls m : List (Nat × Nat))
    (dn : Nat) (w w1 : World),
    linkOne cls m dn w ts = some w1 →
    w1.counter = w.counter ∧ w1.nmap = w.nmap ∧
    (∀ id, id ≠ dn → alookup id w1.dmap = alookup id w.dmap) ∧
    (∀ x, hasSigB w x = true → hasSigB w1 x = true) ∧
    (∀ cnt, (∀ i, cnt ≤ i → ∀ p ∈ (getD w i).trans, ∃ q ∈ m, q.2 = p.2) →
      ∀ i, cnt ≤ i → ∀ p ∈ (getD w1 i).trans, ∃ q ∈ m, q.2 = p.2) := by
  intro ts
  induction ts with
  | nil =>
      intro cls m dn w w1 h
      simp only [linkOne] at h
      injection h with h
      subst h
      exact ⟨rfl, rfl, fun id _ => rfl, fun x hx => hx, fun cnt hft => hft⟩
  | cons p rest ih =>
      rcases p with ⟨l, t⟩
      intro cls m dn w w1 h
      cases hct : alookup t cls with
      | none =>
          simp only [linkOne, hct] at h
          exact Option.noConfusion h
      | some ct =>
          cases hmt : alookup ct m with
          | none =>
              simp only [linkOne, hct, hmt] at h
              exact Option.noConfusion h
          | some mt =>
              simp only [linkOne, hct, hmt] at h
              obtain ⟨hcnt, hnm, hpres, hmono, hft⟩ := ih _ _ _ _ _ h
              refine ⟨hcnt, hnm, ?_, ?_, ?_⟩
              · intro id hid
                rw [hpres id hid]
                exact alookup_aupdate_ne hid
              · intro x hx
                exact hmono x (hasSigB_dAdd_mono hx)
              · intro cnt hw
                refine hft cnt ?_
                intro i hi p hp
                by_cases hdn : i = dn
                · subst hdn
                  rw [getD_dAdd_self] at hp
                  simp only at hp
                  rcases mem_aupdate hp with h1 | h1
                  · subst h1
                    exact ⟨(ct, mt), alookup_mem hmt, rfl⟩
                  · exact hw i hi p h1
                · rw [getD_dAdd_ne hdn] at hp
                  exact hw i hi p hp

theorem linkOne_sig_self : ∀ (ts : List (Label × Nat)) (cls m : List (Nat × Nat))
    (dn : Nat) (w w1 : World),
    linkOne cls m dn w ts = some w1 →
    (∃ t, (Label.sig, t) ∈ ts) → hasSigB w1 dn = true := by
  intro ts
  induction ts with
  | nil =>
      intro cls m dn w w1 _ hex
      rcases hex with ⟨t, ht⟩
      exact absurd ht (List.not_mem_nil _)
  | cons p rest ih =>
      rcases p with ⟨l, t0⟩
      intro cls m dn w w1 h hex
      cases hct : alookup t0 cls with
      | none =>
          simp only [linkOne, hct] at h
          exact Option.noConfusion h
      | some ct =>
          cases hmt : alookup ct m with
          | none =>
              simp only [linkOne, hct, hmt] at h
              exact Option.noConfusion h
          | some mt =>
              simp only [linkOne, hct, hmt] at h
              rcases hex with ⟨t, ht⟩
              rcases List.mem_cons.mp ht with h1 | h1
              · injection h1 with h2 h3
                subst h2
                have hsig : hasSigB (dAdd w dn Label.sig mt) dn = true := by
                  rw [hasSigB, getD_dAdd_self]
                  simp only
                  rw [alookup_aupdate_self]
                  rfl
                exact (linkOne_spec _ _ _ _ _ _ h).2.2.2.1 dn hsig
              · exact ih _ _ _ _ _ h ⟨t, h1⟩

theorem linkAll_spec : ∀ (ns : List Nat) (cls m : List (Nat × Nat)) (w : World)
    (seen : List Nat) (w1 : World),
    linkAll cls m w seen ns = some w1 →
    w1.counter = w.counter ∧ w1.nmap = w.nmap ∧
    (∀ id, (∀ q ∈ m, q.2 ≠ id) → alookup id w1.dmap = alookup id w.dmap) ∧
    (∀ x, hasSigB w x = true → hasSigB w1 x = true) ∧
    (∀ cnt, (∀ i, cnt ≤ i → ∀ p ∈ (getD w i).trans, ∃ q ∈ m, q.2 = p.2) →
      ∀ i, cnt ≤ i → ∀ p ∈ (getD w1 i).trans, ∃ q ∈ m, q.2 = p.2) := by
  intro ns
  induction ns with
  | nil =>
      intro cls m w seen w1 h
      simp only [linkAll] at h
      injection h with h
      subst h
      exact ⟨rfl, rfl, fun id _ => rfl, fun x hx => hx, fun cnt hft => hft⟩
  | cons n rest ih =>
      intro cls m w seen w1 h
      cases hc : alookup n cls with
      | none =>
          simp only [linkAll, hc] at h
          exact Option.noConfusion h
      | some cid =>
          cases hs : seen.contains cid with
          | true =>
              simp only [linkAll, hc, hs, if_true] at h
              exact ih _ _ _ _ _ h
          | false =>
              cases hm : alookup cid m with
              | none =>
                  simp only [linkAll, hc, hs, Bool.false_eq_true, if_false, hm] at h
                  exact Option.noConfusion h
              | some dn =>
                  cases hl : linkOne cls m dn w (getD w n).trans with
                  | none =>
                      simp only [linkAll, hc, hs, Bool.false_eq_true, if_false,
                        hm, hl] at h
                      exact Option.noConfusion h
                  | some w2 =>
                      simp only [linkAll, hc, hs, Bool.false_eq_true, if_false,
                        hm, hl] at h
                      obtain ⟨c1, n1, p1, s1, f1⟩ := linkOne_spec _ _ _ _ _ _ hl
                      obtain ⟨c2, n2, p2, s2, f2⟩ := ih _ _ _ _ _ h
                      refine ⟨by rw [c2, c1], by rw [n2, n1], ?_, ?_, ?_⟩
                      · intro id hid
                        have hdn : id ≠ dn :=
                          fun hc2 => hid (cid, dn) (alookup_mem hm) hc2.symm
                        rw [p2 id hid, p1 id hdn]
                      · intro x hx
                        exact s2 x (s1 x hx)
                      · intro cnt hft
                        exact f2 cnt (f1 cnt hft)

theorem linkAll_sig : ∀ (ns : List Nat) (cls m : List (Nat × Nat)) (w : World)
    (seen : List Nat) (w1 : World),
    linkAll cls m w seen ns = some w1 →
    (m.map Prod.fst).Nodup →
    (∀ n ∈ ns, hasSigB w n = true) →
    ∀ cid dn, (cid, dn) ∈ m → cid ∉ seen →
      (∃ n ∈ ns, alookup n cls = some cid) → hasSigB w1 dn = true := by
  intro ns
  induction ns with
  | nil =>
      intro cls m w seen w1 _ _ _ cid dn _ _ hcov
      rcases hcov with ⟨n, hn, _⟩
      exact absurd hn (List.not_mem_nil _)
  | cons n rest ih =>
      intro cls m w seen w1 h hnd hreps cid dn hmem hseen hcov
      cases hc : alookup n cls with
      | none =>
          simp only [linkAll, hc] at h
          exact Option.noConfusion h
      | some cidn =>
          cases hs : seen.contains cidn with
          | true =>
              simp only [linkAll, hc, hs, if_true] at h
              have hcov2 : ∃ x ∈ rest, alookup x cls = some cid := by
                rcases hcov with ⟨n2, hn2, hcn2⟩
                rcases List.mem_cons.mp hn2 with h1 | h1
                · subst h1
                  rw [hc] at hcn2
                  injection hcn2 with h2
                  subst h2
                  exact absurd (containsNat_iff.mp hs) hseen
                · exact ⟨n2, h1, hcn2⟩
              exact ih _ _ _ _ _ h hnd
                (fun x hx => hreps x (List.mem_cons_of_mem _ hx))
                cid dn hmem hseen hcov2
          | false =>
              cases hm : alookup cidn m with
              | none =>
                  simp only [linkAll, hc, hs, Bool.false_eq_true, if_false, hm] at h
                  exact Option.noConfusion h
              | some dnn =>
                  cases hl : linkOne cls m dnn w (getD w n).trans with
                  | none =>
                      simp only [linkAll, hc, hs, Bool.false_eq_true, if_false,
                        hm, hl] at h
                      exact Option.noConfusion h
                  | some w2 =>
                      simp only [linkAll, hc, hs, Bool.false_eq_true, if_false,
                        hm, hl] at h
                      by_cases hcid : cid = cidn
                      · subst hcid
                        have hdn : dn = dnn := by
                          have h1 := alookup_of_mem_nodup hnd hmem
                          rw [h1] at hm
                          injection hm
                        subst hdn
                        have hsig2 : hasSigB w2 dn = true := by
                          refine linkOne_sig_self _ _ _ _ _ _ hl ?_
                          have hx := hreps n (List.mem_cons_self _ _)
                          rw [hasSigB] at hx
                          cases ht : alookup Label.sig (getD w n).trans with
                          | none => rw [ht] at hx; simp at hx
                          | some t => exact ⟨t, alookup_mem ht⟩
                        exact (linkAll_spec _ _ _ _ _ _ h).2.2.2.1 dn hsig2
                      · have hcov2 : ∃ x ∈ rest, alookup x cls = some cid := by
                          rcases hcov with ⟨n2, hn2, hcn2⟩
                          rcases List.mem_cons.mp hn2 with h1 | h1
                          · subst h1
                            rw [hc] at hcn2
                            injection hcn2 with h2
                            exact absurd h2.symm hcid
                          · exact ⟨n2, h1, hcn2⟩
                        have hseen2 : cid ∉ cidn :: seen := by
                          intro hc2
                          rcases List.mem_cons.mp hc2 with h1 | h1
                          · exact hcid h1
                          · exact hseen h1
                        refine ih _ _ _ _ _ h hnd ?_ cid dn hmem hseen2 hcov2
                        intro x hx
                        exact (linkOne_spec _ _ _ _ _ _ hl).2.2.2.1 x
                          (hreps x (List.mem_cons_of_mem _ hx))

theorem mem_foldl_unionNat {x : Nat} (f : Nat → List Nat) :
    ∀ (l acc : List Nat),
    x ∈ l.foldl (fun a n => unionNat (f n) a) acc ↔
      (∃ n ∈ l, x ∈ f n) ∨ x ∈ acc := by
  intro l
  induction l with
  | nil => intro acc; simp
  | cons y rest ih =>
      intro acc
      simp only [List.foldl_cons, ih, unionNat_mem, List.mem_cons]
      constructor
      · intro hcase
        rcases hcase with ⟨n, hn, hxn⟩ | hxy | hxa
        · exact Or.inl ⟨n, Or.inr hn, hxn⟩
        · exact Or.inl ⟨y, Or.inl rfl, hxy⟩
        · exact Or.inr hxa
      · intro hcase
        rcases hcase with ⟨n, hn | hn, hxn⟩ | hxa
        · subst hn; exact Or.inr (Or.inl hxn)
        · exact Or.inl ⟨n, hn, hxn⟩
        · exact Or.inr (Or.inr hxa)

theorem gatherLoop_sound (w : World) (R : Nat → Prop)
    (hR : ∀ a, R a → ∀ t ∈ targetsD w a, R t) :
    ∀ (fuel : Nat) (acc nw l : List Nat),
    gatherLoop w fuel acc nw = some l →
    (∀ a ∈ acc, R a) → (∀ a ∈ nw, R a) → ∀ a ∈ l, R a := by
  intro fuel
  induction fuel with
  | zero =>
      intro acc nw l h hacc hnw
      cases nw with
      | nil =>
          simp only [gatherLoop] at h
          injection h with h
          subst h
          exact hacc
      | cons y ys =>
          simp only [gatherLoop] at h
          exact Option.noConfusion h
  | succ f ih =>
      intro acc nw l h hacc hnw
      cases nw with
      | nil =>
          simp only [gatherLoop] at h
          injection h with h
          subst h
          exact hacc
      | cons y ys =>
          simp only [gatherLoop] at h
          have htgtsR : ∀ t,
              t ∈ (y :: ys).foldl (fun a n => unionNat (targetsD w n) a) [] →
              R t := by
            intro t ht
            rcases (mem_foldl_unionNat _ _ _).mp ht with ⟨n, hn, htn⟩ | hf
            · exact hR n (hnw n hn) t htn
            · exact absurd hf (List.not_mem_nil t)
          refine ih _ _ _ h ?_ ?_
          · intro a ha
            rcases unionNat_mem.mp ha with h1 | h1
            · exact htgtsR a (List.mem_filter.mp h1).1
            · exact hacc a h1
          · intro a ha
            exact htgtsR a (List.mem_filter.mp ha).1

/-- Packaged properties of `DCMFA.from_dcfa`: the minimization stage leaves
    the nondeterministic store and every existing deterministic node
    untouched, its result is built exclusively from freshly allocated
    nodes (ids at or above the input counter, hence never the trap node),
    its matching runs never step into the module trap node, and when every
    reachable input node carries a Σ transition the minimized automaton's
    `read` is total on its reachable states. -/
theorem dcmfa_spec {w : World} {init fuel : Nat} {w' : World} {mi : Nat}
    (h : dcmfaFromDcfa w init fuel = some (w', mi)) (hwf : dmapWf w) :
    w'.nmap = w.nmap ∧
    (∀ id, id < w.counter → alookup id w'.dmap = alookup id w.dmap) ∧
    w.counter ≤ mi ∧
    (∀ j, ReachD w' mi j → w.counter ≤ j) ∧
    (0 < w.counter → ∀ s, trapHit w' mi s = false) ∧
    ((∀ i, ReachD w init i → hasSigB w i = true) →
      ∀ j, ReachD w' mi j → ∀ c : Char,
        (dnRead (getD w' j) c).isSome = true) := by
  cases hg : gatherD w init fuel with
  | none =>
      simp only [dcmfaFromDcfa, hg] at h
      exact Option.noConfusion h
  | some nodes =>
  cases ha : minAlphabet w nodes with
  | none =>
      simp only [dcmfaFromDcfa, hg, ha] at h
      exact Option.noConfusion h
  | some alpha =>
  cases hr : refineLoop w alpha nodes fuel (initCls w nodes) 3 with
  | none =>
      simp only [dcmfaFromDcfa, hg, ha, hr] at h
      exact Option.noConfusion h
  | some cls =>
  cases hal : allocMin w cls [] nodes with
  | none =>
      simp only [dcmfaFromDcfa, hg, ha, hr, hal] at h
      exact Option.noConfusion h
  | some wp =>
  rcases wp with ⟨w1, m⟩
  cases hla : linkAll cls m w1 [] nodes with
  | none =>
      simp only [dcmfaFromDcfa, hg, ha, hr, hal, hla] at h
      exact Option.noConfusion h
  | some w2 =>
  cases hci : alookup init cls with
  | none =>
      simp only [dcmfaFromDcfa, hg, ha, hr, hal, hla, hci] at h
      exact Option.noConfusion h
  | some cid =>
  cases hmi : alookup cid m with
  | none =>
      simp only [dcmfaFromDcfa, hg, ha, hr, hal, hla, hci, hmi, Option.map_none'] at h
      exact Option.noConfusion h
  | some mival =>
  simp only [dcmfaFromDcfa, hg, ha, hr, hal, hla, hci, hmi, Option.map_some'] at h
  injection h with h
  injection h with h1 h2
  subst h1
  subst h2
  obtain ⟨hcle, hnm1, hpres1, hmv, hcov, hnd⟩ := allocMin_spec _ _ _ _ _ _ hal
  have hfreshtr := allocMin_fresh_trans _ _ _ _ _ _ hal hwf
  obtain ⟨hc2, hnm2, hpres2, hsmono2, hft2⟩ := linkAll_spec _ _ _ _ _ _ hla
  have hmge : ∀ q ∈ m, w.counter ≤ q.2 := by
    intro q hq
    rcases hmv q hq with habs | hh
    · exact absurd habs (List.not_mem_nil q)
    · exact hh.1
  have hFT : ∀ i, w.counter ≤ i → ∀ p ∈ (getD w2 i).trans,
      ∃ q ∈ m, q.2 = p.2 := by
    refine hft2 w.counter ?_
    intro i hi p hp
    rw [hfreshtr i hi] at hp
    exact absurd hp (List.not_mem_nil p)
  have hmige : w.counter ≤ mival := hmge (cid, mival) (alookup_mem hmi)
  have hreachge : ∀ j, ReachD w2 mival j → w.counter ≤ j := by
    intro j hj
    induction hj with
    | refl => exact hmige
    | @step i j l hprev hmem ihh =>
        obtain ⟨q, hq, hq2⟩ := hFT i ihh (l, j) hmem
        have := hmge q hq
        simp only at hq2
        omega
  have hdnmem : ∀ i c j, dnRead (getD w2 i) c = some j →
      ∃ l, (l, j) ∈ (getD w2 i).trans := by
    intro i c j hd
    cases hcc : alookup (Label.chr c) (getD w2 i).trans with
    | some t =>
        simp only [dnRead, hcc] at hd
        injection hd with hd
        subst hd
        exact ⟨_, alookup_mem hcc⟩
    | none =>
        simp only [dnRead, hcc] at hd
        exact ⟨_, alookup_mem hd⟩
  refine ⟨hnm2.trans hnm1, ?_, hmige, hreachge, ?_, ?_⟩
  · intro id hid
    have hstep1 : alookup id w2.dmap = alookup id w1.dmap := by
      refine hpres2 id ?_
      intro q hq hq2
      have := hmge q hq
      omega
    rw [hstep1]
    exact hpres1 id hid
  · intro h0 s
    have hgen : ∀ (s : List Char) (i : Nat), w.counter ≤ i →
        trapHit w2 i s = false := by
      intro s
      induction s with
      | nil => intro i _; rfl
      | cons c cs ihs =>
          intro i hi
          simp only [trapHit]
          cases hrd : dnRead (getD w2 i) c with
          | none => rfl
          | some j =>
              obtain ⟨l, hlj⟩ := hdnmem i c j hrd
              obtain ⟨q, hq, hq2⟩ := hFT i hi (l, j) hlj
              have hj : w.counter ≤ j := by
                have := hmge q hq
                simp only at hq2
                omega
              have hj0 : ¬(j = 0) := by omega
              show (if j = 0 then true else trapHit w2 j cs) = false
              rw [if_neg hj0]
              exact ihs j hj
    exact hgen s mival hmige
  · intro hsig j hj c
    simp only [gatherD] at hg
    have hnodesR : ∀ n ∈ nodes, ReachD w init n := by
      refine gatherLoop_sound w (ReachD w init) ?_ fuel [init] [init] nodes hg ?_ ?_
      · intro a ha t ht
        rcases List.mem_map.mp ht with ⟨p, hp, hpt⟩
        rcases p with ⟨l, t0⟩
        cases hpt
        exact ReachD.step ha hp
      · intro a ha
        rw [List.mem_singleton] at ha
        subst ha
        exact ReachD.refl
      · intro a ha
        rw [List.mem_singleton] at ha
        subst ha
        exact ReachD.refl
    have hs1 : ∀ n ∈ nodes, hasSigB w1 n = true := by
      intro n hn
      have hsn := hsig n (hnodesR n hn)
      have hlt := hasSigB_lt_counter hwf hsn
      have hgd : getD w1 n = getD w n := by
        rw [getD, getD, hpres1 n hlt]
      rw [hasSigB, hgd]
      exact hsn
    have hndup : (m.map Prod.fst).Nodup := hnd List.nodup_nil
    have hmsig : ∀ q ∈ m, hasSigB w2 q.2 = true := by
      intro q hq
      rcases hcov q hq with habs | ⟨n, hn, hcn⟩
      · exact absurd habs (List.not_mem_nil q)
      · rcases q with ⟨cid2, dn2⟩
        exact linkAll_sig _ _ _ _ _ _ hla hndup hs1 cid2 dn2 hq
          (List.not_mem_nil _) ⟨n, hn, hcn⟩
    have hPreach : ∀ j, ReachD w2 mival j → ∃ q ∈ m, q.2 = j := by
      intro j hj2
      induction hj2 with
      | refl => exact ⟨(cid, mival), alookup_mem hmi, rfl⟩
      | @step i j l hprev hmem ihh =>
          obtain ⟨q, hq, hq2⟩ := ihh
          have hige : w.counter ≤ i := by
            have := hmge q hq
            omega
          exact hFT i hige (l, j) hmem
    obtain ⟨q, hq, hq2⟩ := hPreach j hj
    have hjs : hasSigB w2 j = true := by
      have := hmsig q hq
      rw [hq2] at this
      exact this
    cases hcc : alookup (Label.chr c) (getD w2 j).trans with
    | some t => simp [dnRead, hcc]
    | none =>
        simp only [dnRead, hcc]
        simpa [hasSigB] using hjs

/-! ## Minimization refinement: signature distinctness -/


theorem alookup_map_snd {α β γ : Type} [DecidableEq α] (f : β → γ) (n : α) :
    ∀ (l : List (α × β)),
    alookup n (l.map (fun p => (p.1, f p.2))) = (alookup n l).map f := by
  intro l
  induction l with
  | nil => rfl
  | cons p rest ih =>
      rcases p with ⟨a, b⟩
      by_cases hk : a = n
      · subst hk; simp [alookup]
      · simp [alookup, hk, ih]

theorem alookup_isSome_of_mem_keys {α β : Type} [DecidableEq α] {n : α} :
    ∀ {l : List (α × β)}, n ∈ l.map Prod.fst → (alookup n l).isSome = true := by
  intro l
  induction l with
  | nil => intro h; simp at h
  | cons p rest ih =>
      rcases p with ⟨a, b⟩
      intro h
      by_cases hk : a = n
      · subst hk; simp [alookup]
      · simp only [List.map_cons, List.mem_cons] at h
        rcases h with h | h
        · exact absurd h.symm hk
        · simp only [alookup, if_neg hk]
          exact ih h

theorem alookup_none_of_not_mem_keys {α β : Type} [DecidableEq α] {n : α}
    {l : List (α × β)} (h : n ∉ l.map Prod.fst) : alookup n l = none := by
  cases hx : alookup n l with
  | none => rfl
  | some v =>
      exact absurd (List.mem_map.mpr ⟨(n, v), alookup_mem hx, rfl⟩) h

theorem digit_cancel {a b sa sb system : Nat}
    (h : a + sa = b + sb) (hda : system ∣ sa) (hdb : system ∣ sb)
    (ha : a < system) (hb : b < system) : a = b ∧ sa = sb := by
  obtain ⟨qa, hqa⟩ := hda
  obtain ⟨qb, hqb⟩ := hdb
  subst hqa hqb
  have h1 : a % system = a := Nat.mod_eq_of_lt ha
  have h2 : b % system = b := Nat.mod_eq_of_lt hb
  have h3 : (a + system * qa) % system = (b + system * qb) % system := by rw [h]
  rw [Nat.add_mul_mod_self_left, Nat.add_mul_mod_self_left, h1, h2] at h3
  exact ⟨h3, by omega⟩

theorem derivTrans_dvd {w : World} {cls : List (Nat × Nat)} {system n : Nat} :
    ∀ (alpha : List Label) (rank s : Nat),
    derivTrans w cls system n alpha rank = some s → system ^ (rank + 1) ∣ s := by
  intro alpha
  induction alpha with
  | nil =>
      intro rank s h
      simp only [derivTrans] at h
      injection h with h
      subst h
      exact dvd_zero _
  | cons l rest ih =>
      intro rank s h
      cases hl : alookup l (getD w n).trans with
      | none =>
          simp only [derivTrans, hl] at h
          exact dvd_trans (pow_dvd_pow _ (by omega)) (ih (rank + 1) s h)
      | some t =>
          cases hc : alookup t cls with
          | none =>
              simp only [derivTrans, hl, hc] at h
              exact Option.noConfusion h
          | some ct =>
              cases hr : derivTrans w cls system n rest (rank + 1) with
              | none =>
                  simp only [derivTrans, hl, hc, hr] at h
                  exact Option.noConfusion h
              | some s2 =>
                  simp only [derivTrans, hl, hc, hr, Option.map_some'] at h
                  injection h with h
                  subst h
                  exact dvd_add
                    (dvd_trans (pow_dvd_pow _ (by omega)) (ih (rank + 1) s2 hr))
                    (dvd_mul_left _ _)

theorem derivTrans_congr {w : World} {cls : List (Nat × Nat)} {system x y : Nat} :
    ∀ (alpha : List Label) (rank sx sy : Nat),
    (∀ l ∈ alpha, digitOpt w cls x l = digitOpt w cls y l) →
    derivTrans w cls system x alpha rank = some sx →
    derivTrans w cls system y alpha rank = some sy → sx = sy := by
  intro alpha
  induction alpha with
  | nil =>
      intro rank sx sy _ hx hy
      simp only [derivTrans] at hx hy
      injection hx with hx
      injection hy with hy
      omega
  | cons l rest ih =>
      intro rank sx sy hdig hx hy
      have hl : digitOpt w cls x l = digitOpt w cls y l :=
        hdig l (List.mem_cons_self _ _)
      have hrest : ∀ q ∈ rest, digitOpt w cls x q = digitOpt w cls y q :=
        fun q hq => hdig q (List.mem_cons_of_mem _ hq)
      cases hlx : alookup l (getD w x).trans with
      | none =>
          have hdx : digitOpt w cls x l = none := by simp [digitOpt, hlx]
          cases hly : alookup l (getD w y).trans with
          | none =>
              simp only [derivTrans, hlx] at hx
              simp only [derivTrans, hly] at hy
              exact ih (rank + 1) sx sy hrest hx hy
          | some ty =>
              have hdy : alookup ty cls = none := by
                have h2 := hl
                rw [hdx] at h2
                simp only [digitOpt, hly] at h2
                exact h2.symm
              simp only [derivTrans, hly, hdy] at hy
              exact Option.noConfusion hy
      | some tx =>
          cases hcx : alookup tx cls with
          | none =>
              simp only [derivTrans, hlx, hcx] at hx
              exact Option.noConfusion hx
          | some ct =>
              have hdx : digitOpt w cls x l = some ct := by
                simp [digitOpt, hlx, hcx]
              cases hly : alookup l (getD w y).trans with
              | none =>
                  have h2 : digitOpt w cls y l = none := by simp [digitOpt, hly]
                  rw [hdx, h2] at hl
                  exact Option.noConfusion hl
              | some ty =>
                  have hcy : alookup ty cls = some ct := by
                    have h2 := hl
                    rw [hdx] at h2
                    simp only [digitOpt, hly] at h2
                    exact h2.symm
                  cases hrx : derivTrans w cls system x rest (rank + 1) with
                  | none =>
                      simp only [derivTrans, hlx, hcx, hrx] at hx
                      exact Option.noConfusion hx
                  | some sx2 =>
                  cases hry : derivTrans w cls system y rest (rank + 1) with
                  | none =>
                      simp only [derivTrans, hly, hcy, hry] at hy
                      exact Option.noConfusion hy
                  | some sy2 =>
                      simp only [derivTrans, hlx, hcx, hrx, Option.map_some'] at hx
                      simp only [derivTrans, hly, hcy, hry, Option.map_some'] at hy
                      injection hx with hx
                      injection hy with hy
                      have := ih (rank + 1) sx2 sy2 hrest hrx hry
                      omega



theorem derivAll_keys {w : World} {cls : List (Nat × Nat)} {alpha : List Label}
    {system : Nat} : ∀ (ns : List Nat) (ders : List (Nat × Nat)),
    derivAll w cls alpha system ns = some ders → ders.map Prod.fst = ns := by
  intro ns
  induction ns with
  | nil =>
      intro ders h
      simp only [derivAll] at h
      injection h with h
      subst h
      rfl
  | cons n rest ih =>
      intro ders h
      cases ho : alookup n cls with
      | none =>
          simp only [derivAll, ho] at h
          exact Option.noConfusion h
      | some own =>
      cases hs : derivTrans w cls system n alpha 0 with
      | none =>
          simp only [derivAll, ho, hs] at h
          exact Option.noConfusion h
      | some s =>
      cases ht : derivAll w cls alpha system rest with
      | none =>
          simp only [derivAll, ho, hs, ht] at h
          exact Option.noConfusion h
      | some tail =>
          simp only [derivAll, ho, hs, ht] at h
          injection h with h
          subst h
          simp [ih tail ht]

theorem derivAll_lookup {w : World} {cls : List (Nat × Nat)} {alpha : List Label}
    {system : Nat} : ∀ (ns : List Nat) (ders : List (Nat × Nat)),
    derivAll w cls alpha system ns = some ders →
    ∀ n v, alookup n ders = some v →
      ∃ own s, alookup n cls = some own ∧
        derivTrans w cls system n alpha 0 = some s ∧ v = own + s := by
  intro ns
  induction ns with
  | nil =>
      intro ders h n v hv
      simp only [derivAll] at h
      injection h with h
      subst h
      simp [alookup] at hv
  | cons n0 rest ih =>
      intro ders h n v hv
      cases ho : alookup n0 cls with
      | none =>
          simp only [derivAll, ho] at h
          exact Option.noConfusion h
      | some own =>
      cases hs : derivTrans w cls system n0 alpha 0 with
      | none =>
          simp only [derivAll, ho, hs] at h
          exact Option.noConfusion h
      | some s =>
      cases ht : derivAll w cls alpha system rest with
      | none =>
          simp only [derivAll, ho, hs, ht] at h
          exact Option.noConfusion h
      | some tail =>
          simp only [derivAll, ho, hs, ht] at h
          injection h with h
          subst h
          by_cases hn : n0 = n
          · subst hn
            simp only [alookup, if_pos rfl] at hv
            injection hv with hv
            exact ⟨own, s, ho, hs, hv.symm⟩
          · simp only [alookup, if_neg hn] at hv
            exact ih tail ht n v hv

theorem assignLoop_spec : ∀ (ders ids : List (Nat × Nat)) (sys : Nat),
    (∀ p ∈ ids, 1 ≤ p.2 ∧ p.2 < sys) →
    (∀ p q, p ∈ ids → q ∈ ids → p.2 = q.2 → p.1 = q.1) →
    1 ≤ sys →
    ∃ idsF : List (Nat × Nat),
      (∀ d, (alookup d ids).isSome = true → alookup d idsF = alookup d ids) ∧
      (∀ p ∈ idsF, 1 ≤ p.2 ∧ p.2 < (assignLoop ders ids sys).2) ∧
      (∀ p q, p ∈ idsF → q ∈ idsF → p.2 = q.2 → p.1 = q.1) ∧
      (∀ p ∈ ders, (alookup p.2 idsF).isSome = true) ∧
      (assignLoop ders ids sys).1 =
        ders.map (fun p => (p.1, (alookup p.2 idsF).getD 0)) ∧
      sys ≤ (assignLoop ders ids sys).2 := by
  intro ders
  induction ders with
  | nil =>
      intro ids sys hb hinj hs
      refine ⟨ids, fun d _ => rfl, ?_, hinj, ?_, rfl, le_refl _⟩
      · intro p hp
        exact hb p hp
      · intro p hp
        exact absurd hp (List.not_mem_nil p)
  | cons pd rest ih =>
      rcases pd with ⟨n, d⟩
      intro ids sys hb hinj hs
      cases hlk : alookup d ids with
      | some cid =>
          rcases hrec : assignLoop rest ids sys with ⟨tail, sys2⟩
          obtain ⟨idsF, hext, hbF, hinjF, hsomeF, hmapF, hle⟩ := ih ids sys hb hinj hs
          simp only [hrec] at hbF hmapF hle
          refine ⟨idsF, hext, ?_, hinjF, ?_, ?_, ?_⟩
          · intro p hp
            have hx := hbF p hp
            simp only [assignLoop, hlk, hrec]
            exact hx
          · intro p hp
            rcases List.mem_cons.mp hp with h1 | h1
            · subst h1
              rw [hext d (by rw [hlk]; rfl), hlk]
              rfl
            · exact hsomeF p h1
          · simp only [assignLoop, hlk, hrec, List.map_cons]
            rw [hext d (by rw [hlk]; rfl), hlk, hmapF]
            rfl
          · simp only [assignLoop, hlk, hrec]
            exact hle
      | none =>
          rcases hrec : assignLoop rest ((d, sys) :: ids) (sys + 1) with ⟨tail, sys2⟩
          have hb2 : ∀ p ∈ (d, sys) :: ids, 1 ≤ p.2 ∧ p.2 < sys + 1 := by
            intro p hp
            rcases List.mem_cons.mp hp with h1 | h1
            · subst h1
              exact ⟨hs, by omega⟩
            · have := hb p h1
              exact ⟨this.1, by omega⟩
          have hinj2 : ∀ p q, p ∈ (d, sys) :: ids → q ∈ (d, sys) :: ids →
              p.2 = q.2 → p.1 = q.1 := by
            rintro ⟨p1, p2⟩ ⟨q1, q2⟩ hp hq hpq
            have hpq2 : p2 = q2 := hpq
            rcases List.mem_cons.mp hp with h1 | h1 <;>
              rcases List.mem_cons.mp hq with h2 | h2
            · injection h1 with h1a h1b
              injection h2 with h2a h2b
              show p1 = q1
              rw [h1a, h2a]
            · injection h1 with h1a h1b
              have hq2 : q2 < sys := (hb _ h2).2
              omega
            · injection h2 with h2a h2b
              have hp2 : p2 < sys := (hb _ h1).2
              omega
            · exact hinj _ _ h1 h2 hpq
          obtain ⟨idsF, hext, hbF, hinjF, hsomeF, hmapF, hle⟩ :=
            ih ((d, sys) :: ids) (sys + 1) hb2 hinj2 (by omega)
          simp only [hrec] at hbF hmapF hle
          have hdlook : alookup d ((d, sys) :: ids) = some sys := by
            simp [alookup]
          have hextI : ∀ d2, (alookup d2 ids).isSome = true →
              alookup d2 idsF = alookup d2 ids := by
            intro d2 hd2
            have hne : d ≠ d2 := by
              intro he
              rw [← he, hlk] at hd2
              exact Bool.noConfusion hd2
            have hskip : alookup d2 ((d, sys) :: ids) = alookup d2 ids := by
              simp [alookup, hne]
            rw [← hskip]
            exact hext d2 (by rw [hskip]; exact hd2)
          refine ⟨idsF, hextI, ?_, hinjF, ?_, ?_, ?_⟩
          · intro p hp
            have hx := hbF p hp
            simp only [assignLoop, hlk, hrec]
            exact hx
          · intro p hp
            rcases List.mem_cons.mp hp with h1 | h1
            · subst h1
              rw [hext d (by rw [hdlook]; rfl), hdlook]
              rfl
            · exact hsomeF p h1
          · simp only [assignLoop, hlk, hrec, List.map_cons]
            rw [hext d (by rw [hdlook]; rfl), hdlook, hmapF]
            rfl
          · simp only [assignLoop, hlk, hrec]
            omega



theorem initCls_keys (w : World) (nodes : List Nat) :
    (initCls w nodes).map Prod.fst = nodes := by
  induction nodes with
  | nil => rfl
  | cons n rest ih =>
      simp only [initCls, List.map_cons] at ih ⊢
      rw [ih]

theorem initCls_lookup {w : World} {nodes : List Nat} {x v : Nat} :
    alookup x (initCls w nodes) = some v →
    v = (if (getD w x).isFinal then 2 else 1) := by
  induction nodes with
  | nil =>
      intro h
      simp [initCls, alookup] at h
  | cons n rest ih =>
      intro h
      simp only [initCls, List.map_cons] at h
      simp only [alookup] at h
      by_cases hx : n = x
      · rw [if_pos hx] at h
        injection h with h
        subst hx
        exact h.symm
      · rw [if_neg hx] at h
        exact ih h

theorem initCls_bounds (w : World) (nodes : List Nat) :
    ∀ p ∈ initCls w nodes, 1 ≤ p.2 ∧ p.2 < 3 := by
  intro p hp
  rcases List.mem_map.mp hp with ⟨n, _, hpe⟩
  have h2 : p.2 = if (getD w n).isFinal then 2 else 1 := by rw [← hpe]
  rw [h2]
  split <;> omega

theorem initCls_fin (w : World) (nodes : List Nat) : FinP w (initCls w nodes) := by
  intro x y v hx hy
  have ex := initCls_lookup hx
  have ey := initCls_lookup hy
  by_cases fx : (getD w x).isFinal <;> by_cases fy : (getD w y).isFinal <;>
    simp [fx, fy] at ex ey ⊢ <;> omega

theorem initCls_inv (w : World) (alpha : List Label) (nodes : List Nat) :
    InvP w alpha (initCls w nodes) := by
  intro x y vx vy hx hy hne
  left
  intro hfe
  apply hne
  rw [initCls_lookup hx, initCls_lookup hy, hfe]

theorem refine_step {w : World} {alpha : List Label} {nodes : List Nat}
    {cls ders : List (Nat × Nat)} {system : Nat}
    (hd : derivAll w cls alpha system nodes = some ders)
    (hkeys : cls.map Prod.fst = nodes)
    (hB : ∀ p ∈ cls, 1 ≤ p.2 ∧ p.2 < system)
    (hfin : FinP w cls) (hinv : InvP w alpha cls) :
    (assignLoop ders [] 1).1.map Prod.fst = nodes ∧
    (∀ p ∈ (assignLoop ders [] 1).1,
      1 ≤ p.2 ∧ p.2 < (assignLoop ders [] 1).2) ∧
    FinP w (assignLoop ders [] 1).1 ∧ InvP w alpha (assignLoop ders [] 1).1 := by
  obtain ⟨idsF, hext, hbF, hinjF, hsomeF, hmapF, hle⟩ :=
    assignLoop_spec ders [] 1
      (by intro p hp; exact absurd hp (List.not_mem_nil p))
      (by intro p q hp _ _; exact absurd hp (List.not_mem_nil p))
      (le_refl 1)
  have hdk := derivAll_keys nodes ders hd
  have hlc : ∀ n, alookup n (assignLoop ders [] 1).1 =
      (alookup n ders).map (fun d => (alookup d idsF).getD 0) := by
    intro n
    rw [hmapF]
    exact alookup_map_snd (fun d => (alookup d idsF).getD 0) n ders
  have hK : (assignLoop ders [] 1).1.map Prod.fst = nodes := by
    rw [hmapF, List.map_map]
    have : (Prod.fst ∘ fun p : Nat × Nat => (p.1, (alookup p.2 idsF).getD 0)) =
        Prod.fst := rfl
    rw [this, hdk]
  -- from equal values in the new partition, recover equal signatures
  have hS : ∀ x y v, alookup x (assignLoop ders [] 1).1 = some v →
      alookup y (assignLoop ders [] 1).1 = some v →
      ∃ d, alookup x ders = some d ∧ alookup y ders = some d := by
    intro x y v hx hy
    rw [hlc] at hx hy
    rcases Option.map_eq_some'.mp hx with ⟨dx, hdx, hfx⟩
    rcases Option.map_eq_some'.mp hy with ⟨dy, hdy, hfy⟩
    have hsx : (alookup dx idsF).isSome = true :=
      hsomeF (x, dx) (alookup_mem hdx)
    have hsy : (alookup dy idsF).isSome = true :=
      hsomeF (y, dy) (alookup_mem hdy)
    rcases Option.isSome_iff_exists.mp hsx with ⟨vx2, hvx2⟩
    rcases Option.isSome_iff_exists.mp hsy with ⟨vy2, hvy2⟩
    rw [hvx2] at hfx
    rw [hvy2] at hfy
    simp only [Option.getD_some] at hfx hfy
    have h3 := hinjF (dx, vx2) (dy, vy2) (alookup_mem hvx2) (alookup_mem hvy2)
      (by show vx2 = vy2; rw [hfx, hfy])
    have h4 : dx = dy := h3
    exact ⟨dx, hdx, by rw [h4]; exact hdy⟩
  have hR1 : ∀ x y v, alookup x (assignLoop ders [] 1).1 = some v →
      alookup y (assignLoop ders [] 1).1 = some v →
      ∃ own sx sy, alookup x cls = some own ∧ alookup y cls = some own ∧
        derivTrans w cls system x alpha 0 = some sx ∧
        derivTrans w cls system y alpha 0 = some sy ∧ sx = sy := by
    intro x y v hx hy
    obtain ⟨d, hdx, hdy⟩ := hS x y v hx hy
    obtain ⟨ox, sx, hox, hsx, hdx2⟩ := derivAll_lookup nodes ders hd x d hdx
    obtain ⟨oy, sy, hoy, hsy, hdy2⟩ := derivAll_lookup nodes ders hd y d hdy
    have hbx := hB (x, ox) (alookup_mem hox)
    have hby := hB (y, oy) (alookup_mem hoy)
    have hdvx : system ∣ sx := by
      have := derivTrans_dvd alpha 0 sx hsx
      rwa [pow_one] at this
    have hdvy : system ∣ sy := by
      have := derivTrans_dvd alpha 0 sy hsy
      rwa [pow_one] at this
    have hcan := @digit_cancel ox oy sx sy system (by omega) hdvx hdvy
      hbx.2 hby.2
    refine ⟨ox, sx, sy, hox, ?_, hsx, hsy, hcan.2⟩
    rw [← hcan.1] at hoy
    exact hoy
  -- none-correspondence between the partitions
  have hnonx : ∀ t, alookup t (assignLoop ders [] 1).1 = none ↔
      alookup t cls = none := by
    intro t
    constructor
    · intro h
      cases hc : alookup t cls with
      | none => rfl
      | some ct =>
          have hmem : t ∈ cls.map Prod.fst :=
            List.mem_map.mpr ⟨(t, ct), alookup_mem hc, rfl⟩
          rw [hkeys, ← hK] at hmem
          have := alookup_isSome_of_mem_keys hmem
          rw [h] at this
          exact Bool.noConfusion this
    · intro h
      cases hc : alookup t (assignLoop ders [] 1).1 with
      | none => rfl
      | some ct =>
          have hmem : t ∈ (assignLoop ders [] 1).1.map Prod.fst :=
            List.mem_map.mpr ⟨(t, ct), alookup_mem hc, rfl⟩
          rw [hK, ← hkeys] at hmem
          have := alookup_isSome_of_mem_keys hmem
          rw [h] at this
          exact Bool.noConfusion this
  -- transfer of digit separation from the old partition to the new one
  have hT : ∀ x y l, digitOpt w cls x l ≠ digitOpt w cls y l →
      digitOpt w (assignLoop ders [] 1).1 x l ≠
        digitOpt w (assignLoop ders [] 1).1 y l := by
    intro x y l hld hcontra
    apply hld
    cases hlx : alookup l (getD w x).trans with
    | none =>
        cases hly : alookup l (getD w y).trans with
        | none => simp [digitOpt, hlx, hly]
        | some ty =>
            have hx0 : digitOpt w (assignLoop ders [] 1).1 x l = none := by
              simp [digitOpt, hlx]
            have hy0 : digitOpt w (assignLoop ders [] 1).1 y l =
                alookup ty (assignLoop ders [] 1).1 := by
              simp [digitOpt, hly]
            rw [hx0, hy0] at hcontra
            have := (hnonx ty).mp hcontra.symm
            simp [digitOpt, hlx, hly, this]
    | some tx =>
        cases hly : alookup l (getD w y).trans with
        | none =>
            have hx0 : digitOpt w (assignLoop ders [] 1).1 x l =
                alookup tx (assignLoop ders [] 1).1 := by
              simp [digitOpt, hlx]
            have hy0 : digitOpt w (assignLoop ders [] 1).1 y l = none := by
              simp [digitOpt, hly]
            rw [hx0, hy0] at hcontra
            have := (hnonx tx).mp hcontra
            simp [digitOpt, hlx, hly, this]
        | some ty =>
            have hx0 : digitOpt w (assignLoop ders [] 1).1 x l =
                alookup tx (assignLoop ders [] 1).1 := by
              simp [digitOpt, hlx]
            have hy0 : digitOpt w (assignLoop ders [] 1).1 y l =
                alookup ty (assignLoop ders [] 1).1 := by
              simp [digitOpt, hly]
            rw [hx0, hy0] at hcontra
            cases hnx : alookup tx (assignLoop ders [] 1).1 with
            | none =>
                have h1 := (hnonx tx).mp hnx
                rw [hnx] at hcontra
                have h2 := (hnonx ty).mp hcontra.symm
                simp [digitOpt, hlx, hly, h1, h2]
            | some v =>
                rw [hnx] at hcontra
                obtain ⟨own, sx, sy, hox, hoy, _, _, _⟩ :=
                  hR1 tx ty v hnx hcontra.symm
                simp [digitOpt, hlx, hly, hox, hoy]
  refine ⟨hK, ?_, ?_, ?_⟩
  · intro p hp
    rw [hmapF] at hp
    rcases List.mem_map.mp hp with ⟨q, hq, hpe⟩
    have hsq : (alookup q.2 idsF).isSome = true := hsomeF q hq
    rcases Option.isSome_iff_exists.mp hsq with ⟨vq, hvq⟩
    have h2 : p.2 = vq := by rw [← hpe]; simp [hvq]
    rw [h2]
    exact hbF (q.2, vq) (alookup_mem hvq)
  · intro x y v hx hy
    obtain ⟨own, sx, sy, hox, hoy, _, _, _⟩ := hR1 x y v hx hy
    exact hfin x y own hox hoy
  · intro x y vx vy hx hy hne
    rw [hlc] at hx hy
    rcases Option.map_eq_some'.mp hx with ⟨dx, hdx, hfx⟩
    rcases Option.map_eq_some'.mp hy with ⟨dy, hdy, hfy⟩
    obtain ⟨ox, sx, hox, hsx, hdx2⟩ := derivAll_lookup nodes ders hd x dx hdx
    obtain ⟨oy, sy, hoy, hsy, hdy2⟩ := derivAll_lookup nodes ders hd y dy hdy
    by_cases hoe : ox = oy
    · have hsne : sx ≠ sy := by
        intro he
        apply hne
        rw [← hfx, ← hfy]
        rw [hdx2, hdy2, hoe, he]
      have hnall : ¬ ∀ l ∈ alpha, digitOpt w cls x l = digitOpt w cls y l :=
        fun hall => hsne (derivTrans_congr alpha 0 sx sy hall hsx hsy)
      push_neg at hnall
      obtain ⟨l, hla, hldne⟩ := hnall
      right
      exact ⟨l, hla, hT x y l hldne⟩
    · rcases hinv x y ox oy hox hoy hoe with hf | ⟨l, hla, hld⟩
      · left
        exact hf
      · right
        exact ⟨l, hla, hT x y l hld⟩

theorem refineLoop_spec {w : World} {alpha : List Label} {nodes : List Nat} :
    ∀ (fuel : Nat) (cls : List (Nat × Nat)) (system : Nat)
      (out : List (Nat × Nat)),
    refineLoop w alpha nodes fuel cls system = some out →
    cls.map Prod.fst = nodes →
    (∀ p ∈ cls, 1 ≤ p.2 ∧ p.2 < system) →
    FinP w cls → InvP w alpha cls →
    out.map Prod.fst = nodes ∧ FinP w out ∧ InvP w alpha out := by
  intro fuel
  induction fuel with
  | zero =>
      intro cls system out h _ _ _ _
      simp only [refineLoop] at h
      exact Option.noConfusion h
  | succ fuel ih =>
      intro cls system out h hkeys hB hfin hinv
      cases hd : derivAll w cls alpha system nodes with
      | none =>
          simp only [refineLoop, hd] at h
          exact Option.noConfusion h
      | some ders =>
          rcases hassign : assignLoop ders [] 1 with ⟨newCls, sys2⟩
          simp only [refineLoop, hd, hassign] at h
          by_cases heq : newCls = cls
          · rw [if_pos heq] at h
            injection h with h
            subst h
            exact ⟨hkeys, hfin, hinv⟩
          · rw [if_neg heq] at h
            have hstep := refine_step hd hkeys hB hfin hinv
            rw [hassign] at hstep
            obtain ⟨K, B2, F2, I2⟩ := hstep
            exact ih newCls sys2 out h K B2 F2 I2



theorem transWfD {w : World} (h : transWf w) (n : Nat) :
    (((getD w n).trans.map Prod.fst)).Nodup := by
  cases hx : alookup n w.dmap with
  | none =>
      rw [getD, hx]
      exact List.nodup_nil
  | some nd =>
      rw [getD, hx]
      exact h (n, nd) (alookup_mem hx)

theorem transWf_dAdd {w : World} {i : Nat} {l : Label} {t : Nat}
    (h : transWf w) : transWf (dAdd w i l t) := by
  intro p hp
  have hp2 : p ∈ aupdate i
      (⟨(getD w i).isFinal, aupdate l t (getD w i).trans⟩ : DNode) w.dmap := hp
  rcases mem_aupdate hp2 with h1 | h1
  · subst h1
    show ((aupdate l t (getD w i).trans).map Prod.fst).Nodup
    exact aupdate_keys_nodup (transWfD h i)
  · exact h p h1

theorem transWf_newDN {w : World} {f : Bool} (h : transWf w) :
    transWf (newDN w f).1 := by
  intro p hp
  have hp2 : p ∈ w.dmap ++ [(w.counter, (⟨f, []⟩ : DNode))] := hp
  rcases List.mem_append.mp hp2 with h1 | h1
  · exact h p h1
  · rw [List.mem_singleton] at h1
    subst h1
    exact List.nodup_nil

theorem dmapWf_newDN {w : World} {f : Bool} (h : dmapWf w) :
    dmapWf (newDN w f).1 := by
  intro p hp
  have hp2 : p ∈ w.dmap ++ [(w.counter, (⟨f, []⟩ : DNode))] := hp
  show p.1 < w.counter + 1
  rcases List.mem_append.mp hp2 with h1 | h1
  · have := h p h1
    omega
  · rw [List.mem_singleton] at h1
    subst h1
    show w.counter < w.counter + 1
    omega

theorem getD_newDN_ne {w : World} {f : Bool} {n : Nat} (h : n ≠ w.counter) :
    getD (newDN w f).1 n = getD w n := by
  have he : (newDN w f).1.dmap = w.dmap ++ [(w.counter, (⟨f, []⟩ : DNode))] := rfl
  rw [getD, getD, he]
  cases hx : alookup n w.dmap with
  | none =>
      rw [alookup_append_of_none hx]
      have h2 : alookup n [(w.counter, (⟨f, []⟩ : DNode))] = none := by
        simp [alookup, Ne.symm h]
      rw [h2]
  | some nd =>
      rw [alookup_append_some hx]

theorem transWf_allocMin : ∀ (ns : List Nat) (w : World)
    (cls m : List (Nat × Nat)) (w1 : World) (m1 : List (Nat × Nat)),
    allocMin w cls m ns = some (w1, m1) → transWf w → transWf w1 := by
  intro ns
  induction ns with
  | nil =>
      intro w cls m w1 m1 h hw
      simp only [allocMin] at h
      injection h with h
      injection h with h1 h2
      subst h1
      exact hw
  | cons n rest ih =>
      intro w cls m w1 m1 h hw
      cases hc : alookup n cls with
      | none =>
          simp only [allocMin, hc] at h
          exact Option.noConfusion h
      | some cid =>
          simp only [allocMin, hc] at h
          exact ih _ _ _ _ _ h (transWf_newDN hw)

theorem allocMin_inj : ∀ (ns : List Nat) (w : World) (cls m : List (Nat × Nat))
    (w1 : World) (m1 : List (Nat × Nat)),
    allocMin w cls m ns = some (w1, m1) →
    (∀ p ∈ m, p.2 < w.counter) →
    (∀ p q, p ∈ m → q ∈ m → p.2 = q.2 → p.1 = q.1) →
    ∀ p q, p ∈ m1 → q ∈ m1 → p.2 = q.2 → p.1 = q.1 := by
  intro ns
  induction ns with
  | nil =>
      intro w cls m w1 m1 h hb hinj
      simp only [allocMin] at h
      injection h with h
      injection h with h1 h2
      subst h2
      exact hinj
  | cons n rest ih =>
      intro w cls m w1 m1 h hb hinj
      cases hc : alookup n cls with
      | none =>
          simp only [allocMin, hc] at h
          exact Option.noConfusion h
      | some cid =>
          simp only [allocMin, hc] at h
          refine ih _ _ _ _ _ h ?_ ?_
          · intro p hp
            rcases mem_aupdate hp with h1 | h1
            · subst h1
              show w.counter < w.counter + 1
              omega
            · have := hb p h1
              show p.2 < w.counter + 1
              omega
          · rintro ⟨p1, p2⟩ ⟨q1, q2⟩ hp hq hpq
            have hpq2 : p2 = q2 := hpq
            rcases mem_aupdate hp with h1 | h1 <;> rcases mem_aupdate hq with h2 | h2
            · injection h1 with h1a h1b
              injection h2 with h2a h2b
              show p1 = q1
              rw [h1a, h2a]
            · injection h1 with h1a h1b
              have hq2 : q2 < w.counter := hb _ h2
              have hp2 : p2 = w.counter := h1b
              omega
            · injection h2 with h2a h2b
              have hp2 : p2 < w.counter := hb _ h1
              have hq2 : q2 = w.counter := h2b
              omega
            · exact hinj _ _ h1 h2 hpq

theorem allocMin_fin : ∀ (ns : List Nat) (w : World) (cls m : List (Nat × Nat))
    (w1 : World) (m1 : List (Nat × Nat)),
    allocMin w cls m ns = some (w1, m1) → dmapWf w →
    (∀ n ∈ ns, n < w.counter) →
    ∀ cid dn, alookup cid m1 = some dn →
      alookup cid m = some dn ∨
      ∃ n, alookup n cls = some cid ∧
        (getD w1 dn).isFinal = (getD w1 n).isFinal := by
  intro ns
  induction ns with
  | nil =>
      intro w cls m w1 m1 h _ _ cid dn hdn
      simp only [allocMin] at h
      injection h with h
      injection h with h1 h2
      subst h2
      left
      exact hdn
  | cons n rest ih =>
      intro w cls m w1 m1 h hwf hlt cid dn hdn
      cases hc : alookup n cls with
      | none =>
          simp only [allocMin, hc] at h
          exact Option.noConfusion h
      | some cid0 =>
          simp only [allocMin, hc] at h
          have hwf2 : dmapWf (newDN w (getD w n).isFinal).1 := dmapWf_newDN hwf
          have hlt2 : ∀ n2 ∈ rest, n2 < (newDN w (getD w n).isFinal).1.counter := by
            intro n2 hn2
            have := hlt n2 (List.mem_cons_of_mem _ hn2)
            show n2 < w.counter + 1
            omega
          rcases ih _ _ _ _ _ h hwf2 hlt2 cid dn hdn with h1 | h1
          · by_cases hcc : cid = cid0
            · subst hcc
              rw [alookup_aupdate_self] at h1
              injection h1 with h1
              right
              refine ⟨n, hc, ?_⟩
              have hdnc : dn = w.counter := h1.symm
              subst hdnc
              obtain ⟨_, _, hpres, _, _, _⟩ := allocMin_spec _ _ _ _ _ _ h
              have e1 : alookup w.counter w1.dmap =
                  alookup w.counter (newDN w (getD w n).isFinal).1.dmap :=
                hpres w.counter (by show w.counter < w.counter + 1; omega)
              have e2 : alookup w.counter (newDN w (getD w n).isFinal).1.dmap =
                  some ⟨(getD w n).isFinal, []⟩ := by
                show alookup w.counter
                  (w.dmap ++ [(w.counter, (⟨(getD w n).isFinal, []⟩ : DNode))]) = _
                rw [alookup_append_of_none (alookup_none_of_lt hwf (le_refl _))]
                simp [alookup]
              have e3 : getD w1 w.counter = ⟨(getD w n).isFinal, []⟩ := by
                rw [getD, e1, e2]
                rfl
              have hnlt : n < w.counter := hlt n (List.mem_cons_self _ _)
              have e4 : alookup n w1.dmap =
                  alookup n (newDN w (getD w n).isFinal).1.dmap :=
                hpres n (by show n < w.counter + 1; omega)
              have e5 : getD (newDN w (getD w n).isFinal).1 n = getD w n :=
                getD_newDN_ne (by omega)
              have e6 : getD w1 n = getD w n := by
                rw [getD, e4]
                rw [getD] at e5
                rw [e5]
              rw [e3, e6]
            · rw [alookup_aupdate_ne hcc] at h1
              left
              exact h1
          · right
            exact h1



theorem dAdd_fin {w : World} {i : Nat} {l : Label} {t : Nat} (id : Nat) :
    (getD (dAdd w i l t) id).isFinal = (getD w id).isFinal := by
  by_cases hid : id = i
  · subst hid
    rw [getD_dAdd_self]
  · rw [getD_dAdd_ne hid]

theorem linkOne_fin : ∀ (ts : List (Label × Nat)) (cls m : List (Nat × Nat))
    (dn : Nat) (w w1 : World), linkOne cls m dn w ts = some w1 →
    ∀ id, (getD w1 id).isFinal = (getD w id).isFinal := by
  intro ts
  induction ts with
  | nil =>
      intro cls m dn w w1 h id
      simp only [linkOne] at h
      injection h with h
      subst h
      rfl
  | cons p rest ih =>
      rcases p with ⟨l0, t0⟩
      intro cls m dn w w1 h id
      cases hct : alookup t0 cls with
      | none => simp only [linkOne, hct] at h; exact Option.noConfusion h
      | some ct =>
      cases hmt : alookup ct m with
      | none => simp only [linkOne, hct, hmt] at h; exact Option.noConfusion h
      | some mt =>
          simp only [linkOne, hct, hmt] at h
          rw [ih _ _ _ _ _ h id, dAdd_fin]

theorem linkAll_fin : ∀ (ns : List Nat) (cls m : List (Nat × Nat)) (w : World)
    (seen : List Nat) (w1 : World), linkAll cls m w seen ns = some w1 →
    ∀ id, (getD w1 id).isFinal = (getD w id).isFinal := by
  intro ns
  induction ns with
  | nil =>
      intro cls m w seen w1 h id
      simp only [linkAll] at h
      injection h with h
      subst h
      rfl
  | cons n rest ih =>
      intro cls m w seen w1 h id
      cases hc : alookup n cls with
      | none => simp only [linkAll, hc] at h; exact Option.noConfusion h
      | some cid0 =>
          cases hcont : seen.contains cid0 with
          | true =>
              simp only [linkAll, hc, hcont, if_true] at h
              exact ih _ _ _ _ _ h id
          | false =>
              cases hdn0 : alookup cid0 m with
              | none =>
                  simp only [linkAll, hc, hcont, Bool.false_eq_true, if_false,
                    hdn0] at h
                  exact Option.noConfusion h
              | some dn0 =>
              cases hlo : linkOne cls m dn0 w (getD w n).trans with
              | none =>
                  simp only [linkAll, hc, hcont, Bool.false_eq_true, if_false,
                    hdn0, hlo] at h
                  exact Option.noConfusion h
              | some w2 =>
                  simp only [linkAll, hc, hcont, Bool.false_eq_true, if_false,
                    hdn0, hlo] at h
                  rw [ih _ _ _ _ _ h id, linkOne_fin _ _ _ _ _ _ hlo id]

theorem transWf_linkOne : ∀ (ts : List (Label × Nat)) (cls m : List (Nat × Nat))
    (dn : Nat) (w w1 : World),
    linkOne cls m dn w ts = some w1 → transWf w → transWf w1 := by
  intro ts
  induction ts with
  | nil =>
      intro cls m dn w w1 h hw
      simp only [linkOne] at h
      injection h with h
      subst h
      exact hw
  | cons p rest ih =>
      rcases p with ⟨l0, t0⟩
      intro cls m dn w w1 h hw
      cases hct : alookup t0 cls with
      | none => simp only [linkOne, hct] at h; exact Option.noConfusion h
      | some ct =>
      cases hmt : alookup ct m with
      | none => simp only [linkOne, hct, hmt] at h; exact Option.noConfusion h
      | some mt =>
          simp only [linkOne, hct, hmt] at h
          exact ih _ _ _ _ _ h (transWf_dAdd hw)

theorem transWf_linkAll : ∀ (ns : List Nat) (cls m : List (Nat × Nat))
    (w : World) (seen : List Nat) (w1 : World),
    linkAll cls m w seen ns = some w1 → transWf w → transWf w1 := by
  intro ns
  induction ns with
  | nil =>
      intro cls m w seen w1 h hw
      simp only [linkAll] at h
      injection h with h
      subst h
      exact hw
  | cons n rest ih =>
      intro cls m w seen w1 h hw
      cases hc : alookup n cls with
      | none => simp only [linkAll, hc] at h; exact Option.noConfusion h
      | some cid0 =>
          cases hcont : seen.contains cid0 with
          | true =>
              simp only [linkAll, hc, hcont, if_true] at h
              exact ih _ _ _ _ _ h hw
          | false =>
              cases hdn0 : alookup cid0 m with
              | none =>
                  simp only [linkAll, hc, hcont, Bool.false_eq_true, if_false,
                    hdn0] at h
                  exact Option.noConfusion h
              | some dn0 =>
              cases hlo : linkOne cls m dn0 w (getD w n).trans with
              | none =>
                  simp only [linkAll, hc, hcont, Bool.false_eq_true, if_false,
                    hdn0, hlo] at h
                  exact Option.noConfusion h
              | some w2 =>
                  simp only [linkAll, hc, hcont, Bool.false_eq_true, if_false,
                    hdn0, hlo] at h
                  exact ih _ _ _ _ _ h (transWf_linkOne _ _ _ _ _ _ hlo hw)

theorem linkOne_frame : ∀ (ts : List (Label × Nat)) (cls m : List (Nat × Nat))
    (dn : Nat) (w w1 : World),
    linkOne cls m dn w ts = some w1 →
    ∀ l, (∀ t, (l, t) ∉ ts) →
      alookup l (getD w1 dn).trans = alookup l (getD w dn).trans := by
  intro ts
  induction ts with
  | nil =>
      intro cls m dn w w1 h l _
      simp only [linkOne] at h
      injection h with h
      subst h
      rfl
  | cons p rest ih =>
      rcases p with ⟨l0, t0⟩
      intro cls m dn w w1 h l hnot
      cases hct : alookup t0 cls with
      | none => simp only [linkOne, hct] at h; exact Option.noConfusion h
      | some ct =>
      cases hmt : alookup ct m with
      | none => simp only [linkOne, hct, hmt] at h; exact Option.noConfusion h
      | some mt =>
          simp only [linkOne, hct, hmt] at h
          have hl0 : l ≠ l0 := by
            intro he
            exact hnot t0 (by rw [he]; exact List.mem_cons_self _ _)
          have hrest : ∀ t, (l, t) ∉ rest := by
            intro t2 ht2
            exact hnot t2 (List.mem_cons_of_mem _ ht2)
          rw [ih _ _ _ _ _ h l hrest, getD_dAdd_self]
          show alookup l (aupdate l0 mt (getD w dn).trans) = _
          exact alookup_aupdate_ne hl0

theorem linkOne_copy : ∀ (ts : List (Label × Nat)) (cls m : List (Nat × Nat))
    (dn : Nat) (w w1 : World),
    linkOne cls m dn w ts = some w1 →
    (ts.map Prod.fst).Nodup →
    ∀ l t, alookup l ts = some t →
      ∃ ct mt, alookup t cls = some ct ∧ alookup ct m = some mt ∧
        alookup l (getD w1 dn).trans = some mt := by
  intro ts
  induction ts with
  | nil =>
      intro cls m dn w w1 _ _ l t hlt
      simp [alookup] at hlt
  | cons p rest ih =>
      rcases p with ⟨l0, t0⟩
      intro cls m dn w w1 h hnd l t hlt
      cases hct : alookup t0 cls with
      | none => simp only [linkOne, hct] at h; exact Option.noConfusion h
      | some ct0 =>
      cases hmt : alookup ct0 m with
      | none => simp only [linkOne, hct, hmt] at h; exact Option.noConfusion h
      | some mt0 =>
          simp only [linkOne, hct, hmt] at h
          simp only [List.map_cons, List.nodup_cons] at hnd
          simp only [alookup] at hlt
          by_cases hl0 : l0 = l
          · subst hl0
            rw [if_pos rfl] at hlt
            injection hlt with hlt
            subst hlt
            refine ⟨ct0, mt0, hct, hmt, ?_⟩
            have hfr : ∀ t2, (l0, t2) ∉ rest := by
              intro t2 ht2
              exact hnd.1 (List.mem_map.mpr ⟨(l0, t2), ht2, rfl⟩)
            rw [linkOne_frame _ _ _ _ _ _ h l0 hfr, getD_dAdd_self]
            show alookup l0 (aupdate l0 mt0 (getD w dn).trans) = some mt0
            exact alookup_aupdate_self
          · rw [if_neg hl0] at hlt
            exact ih _ _ _ _ _ h hnd.2 l t hlt

theorem linkAll_untouched : ∀ (ns : List Nat) (cls m : List (Nat × Nat))
    (w : World) (seen : List Nat) (w1 : World),
    linkAll cls m w seen ns = some w1 →
    (∀ p q, p ∈ m → q ∈ m → p.2 = q.2 → p.1 = q.1) →
    ∀ cid dn, alookup cid m = some dn → cid ∈ seen →
      alookup dn w1.dmap = alookup dn w.dmap := by
  intro ns
  induction ns with
  | nil =>
      intro cls m w seen w1 h _ cid dn _ _
      simp only [linkAll] at h
      injection h with h
      subst h
      rfl
  | cons n rest ih =>
      intro cls m w seen w1 h hinj cid dn hdn hseen
      cases hc : alookup n cls with
      | none => simp only [linkAll, hc] at h; exact Option.noConfusion h
      | some cid0 =>
          cases hcont : seen.contains cid0 with
          | true =>
              simp only [linkAll, hc, hcont, if_true] at h
              exact ih _ _ _ _ _ h hinj cid dn hdn hseen
          | false =>
              cases hdn0 : alookup cid0 m with
              | none =>
                  simp only [linkAll, hc, hcont, Bool.false_eq_true, if_false,
                    hdn0] at h
                  exact Option.noConfusion h
              | some dn0 =>
              cases hlo : linkOne cls m dn0 w (getD w n).trans with
              | none =>
                  simp only [linkAll, hc, hcont, Bool.false_eq_true, if_false,
                    hdn0, hlo] at h
                  exact Option.noConfusion h
              | some w2 =>
                  simp only [linkAll, hc, hcont, Bool.false_eq_true, if_false,
                    hdn0, hlo] at h
                  have hne : dn ≠ dn0 := by
                    intro he
                    have hcc : cid = cid0 :=
                      hinj (cid, dn) (cid0, dn0) (alookup_mem hdn)
                        (alookup_mem hdn0) he
                    have hmem : cid0 ∈ seen := by
                      rw [← hcc]
                      exact hseen
                    have := containsNat_iff.mpr hmem
                    rw [hcont] at this
                    exact Bool.noConfusion this
                  have e1 := ih _ _ _ _ _ h hinj cid dn hdn
                    (List.mem_cons_of_mem _ hseen)
                  obtain ⟨_, _, hother, _, _⟩ := linkOne_spec _ _ _ _ _ _ hlo
                  rw [e1, hother dn hne]

theorem linkAll_copy : ∀ (ns : List Nat) (cls m : List (Nat × Nat))
    (w : World) (seen : List Nat) (w1 : World),
    linkAll cls m w seen ns = some w1 →
    (∀ p q, p ∈ m → q ∈ m → p.2 = q.2 → p.1 = q.1) →
    (∀ n ∈ ns, ((getD w n).trans.map Prod.fst).Nodup) →
    (∀ n ∈ ns, ∀ q ∈ m, q.2 ≠ n) →
    ∀ cid dn, alookup cid m = some dn → cid ∉ seen →
      (∃ n2 ∈ ns, alookup n2 cls = some cid) →
      ∃ n0, n0 ∈ ns ∧ alookup n0 cls = some cid ∧
        (∀ l t, alookup l (getD w n0).trans = some t →
           ∃ ct mt, alookup t cls = some ct ∧ alookup ct m = some mt ∧
             alookup l (getD w1 dn).trans = some mt) ∧
        (∀ l, alookup l (getD w n0).trans = none →
           alookup l (getD w1 dn).trans = alookup l (getD w dn).trans) := by
  intro ns
  induction ns with
  | nil =>
      intro cls m w seen w1 h _ _ _ cid dn _ _ hcov
      rcases hcov with ⟨n2, hn2, _⟩
      exact absurd hn2 (List.not_mem_nil _)
  | cons n rest ih =>
      intro cls m w seen w1 h hinj hnd hdisj cid dn hdn hseen hcov
      cases hc : alookup n cls with
      | none => simp only [linkAll, hc] at h; exact Option.noConfusion h
      | some cid0 =>
          cases hcont : seen.contains cid0 with
          | true =>
              simp only [linkAll, hc, hcont, if_true] at h
              have hne : cid0 ≠ cid := by
                intro he
                apply hseen
                rw [← he]
                exact containsNat_iff.mp hcont
              have hcov2 : ∃ n2 ∈ rest, alookup n2 cls = some cid := by
                rcases hcov with ⟨n2, hn2, hcls2⟩
                rcases List.mem_cons.mp hn2 with he | hmem
                · subst he
                  rw [hc] at hcls2
                  injection hcls2 with hcls2
                  exact absurd hcls2 hne
                · exact ⟨n2, hmem, hcls2⟩
              obtain ⟨n0, hn0mem, hn0cls, hcopy, hframe⟩ :=
                ih _ _ _ _ _ h hinj
                  (fun n2 h2 => hnd n2 (List.mem_cons_of_mem _ h2))
                  (fun n2 h2 => hdisj n2 (List.mem_cons_of_mem _ h2))
                  cid dn hdn hseen hcov2
              exact ⟨n0, List.mem_cons_of_mem _ hn0mem, hn0cls, hcopy, hframe⟩
          | false =>
              cases hdn0 : alookup cid0 m with
              | none =>
                  simp only [linkAll, hc, hcont, Bool.false_eq_true, if_false,
                    hdn0] at h
                  exact Option.noConfusion h
              | some dn0 =>
              cases hlo : linkOne cls m dn0 w (getD w n).trans with
              | none =>
                  simp only [linkAll, hc, hcont, Bool.false_eq_true, if_false,
                    hdn0, hlo] at h
                  exact Option.noConfusion h
              | some w2 =>
                  simp only [linkAll, hc, hcont, Bool.false_eq_true, if_false,
                    hdn0, hlo] at h
                  by_cases hcc : cid0 = cid
                  · subst hcc
                    rw [hdn] at hdn0
                    injection hdn0 with hdd
                    subst hdd
                    refine ⟨n, List.mem_cons_self _ _, hc, ?_, ?_⟩
                    · intro l t hlt
                      obtain ⟨ct, mt, hct, hmt, hres⟩ :=
                        linkOne_copy _ _ _ _ _ _ hlo
                          (hnd n (List.mem_cons_self _ _)) l t hlt
                      refine ⟨ct, mt, hct, hmt, ?_⟩
                      have hunt := linkAll_untouched _ _ _ _ _ _ h hinj cid0 dn
                        hdn (List.mem_cons_self _ _)
                      have hgd : getD w1 dn = getD w2 dn := by
                        rw [getD, getD, hunt]
                      rw [hgd]
                      exact hres
                    · intro l hl
                      have hfr : ∀ t2, (l, t2) ∉ (getD w n).trans := by
                        intro t2 ht2
                        have hm := alookup_of_mem_nodup
                          (hnd n (List.mem_cons_self _ _)) ht2
                        rw [hl] at hm
                        exact Option.noConfusion hm
                      have hfrm := linkOne_frame _ _ _ _ _ _ hlo l hfr
                      have hunt := linkAll_untouched _ _ _ _ _ _ h hinj cid0 dn
                        hdn (List.mem_cons_self _ _)
                      have hgd : getD w1 dn = getD w2 dn := by
                        rw [getD, getD, hunt]
                      rw [hgd]
                      exact hfrm
                  · have hdd : dn ≠ dn0 := by
                      intro he
                      have hcq : cid = cid0 :=
                        hinj (cid, dn) (cid0, dn0) (alookup_mem hdn)
                          (alookup_mem hdn0) he
                      exact hcc hcq.symm
                    have hpresrest : ∀ n2 ∈ rest, getD w2 n2 = getD w n2 := by
                      intro n2 h2
                      obtain ⟨_, _, hother, _, _⟩ := linkOne_spec _ _ _ _ _ _ hlo
                      have hne2 : n2 ≠ dn0 := by
                        intro he
                        exact hdisj n2 (List.mem_cons_of_mem _ h2) (cid0, dn0)
                          (alookup_mem hdn0) he.symm
                      rw [getD, getD, hother n2 hne2]
                    have hcov2 : ∃ n2 ∈ rest, alookup n2 cls = some cid := by
                      rcases hcov with ⟨n2, hn2, hcls2⟩
                      rcases List.mem_cons.mp hn2 with he | hmem
                      · subst he
                        rw [hc] at hcls2
                        injection hcls2 with hcls2
                        exact absurd hcls2 hcc
                      · exact ⟨n2, hmem, hcls2⟩
                    have hseen2 : cid ∉ cid0 :: seen := by
                      intro hm
                      rcases List.mem_cons.mp hm with he | hm2
                      · exact hcc he.symm
                      · exact hseen hm2
                    obtain ⟨n0, hn0mem, hn0cls, hcopy, hframe⟩ :=
                      ih _ _ _ _ _ h hinj
                        (fun n2 h2 => by
                          rw [hpresrest n2 h2]
                          exact hnd n2 (List.mem_cons_of_mem _ h2))
                        (fun n2 h2 => hdisj n2 (List.mem_cons_of_mem _ h2))
                        cid dn hdn hseen2 hcov2
                    refine ⟨n0, List.mem_cons_of_mem _ hn0mem, hn0cls, ?_, ?_⟩
                    · intro l t hlt
                      exact hcopy l t (by rw [hpresrest n0 hn0mem]; exact hlt)
                    · intro l hl
                      have h2 := hframe l (by rw [hpresrest n0 hn0mem]; exact hl)
                      rw [h2]
                      obtain ⟨_, _, hother, _, _⟩ := linkOne_spec _ _ _ _ _ _ hlo
                      have hgd : getD w2 dn = getD w dn := by
                        rw [getD, getD, hother dn hdd]
                      rw [hgd]



theorem dcmfa_sig_distinct {w : World} {init fuel : Nat} {w' : World} {mi : Nat}
    (h : dcmfaFromDcfa w init fuel = some (w', mi))
    (hwf : dmapWf w) (htw : transWf w)
    (htgt : ∀ p ∈ w.dmap, ∀ q ∈ p.2.trans, q.2 < w.counter)
    (hinit : init < w.counter) :
    ∀ i j, ReachD w' mi i → ReachD w' mi j →
      (getD w' i).isFinal = (getD w' j).isFinal →
      (∀ l, alookup l (getD w' i).trans = alookup l (getD w' j).trans) →
      i = j := by
  cases hg : gatherD w init fuel with
  | none =>
      simp only [dcmfaFromDcfa, hg] at h
      exact Option.noConfusion h
  | some nodes =>
  cases ha : minAlphabet w nodes with
  | none =>
      simp only [dcmfaFromDcfa, hg, ha] at h
      exact Option.noConfusion h
  | some alpha =>
  cases hr : refineLoop w alpha nodes fuel (initCls w nodes) 3 with
  | none =>
      simp only [dcmfaFromDcfa, hg, ha, hr] at h
      exact Option.noConfusion h
  | some cls =>
  cases hal : allocMin w cls [] nodes with
  | none =>
      simp only [dcmfaFromDcfa, hg, ha, hr, hal] at h
      exact Option.noConfusion h
  | some wp =>
  rcases wp with ⟨w1, m⟩
  cases hla : linkAll cls m w1 [] nodes with
  | none =>
      simp only [dcmfaFromDcfa, hg, ha, hr, hal, hla] at h
      exact Option.noConfusion h
  | some w2 =>
  cases hci : alookup init cls with
  | none =>
      simp only [dcmfaFromDcfa, hg, ha, hr, hal, hla, hci] at h
      exact Option.noConfusion h
  | some cid0 =>
  cases hmi : alookup cid0 m with
  | none =>
      simp only [dcmfaFromDcfa, hg, ha, hr, hal, hla, hci, hmi,
        Option.map_none'] at h
      exact Option.noConfusion h
  | some mival =>
  simp only [dcmfaFromDcfa, hg, ha, hr, hal, hla, hci, hmi, Option.map_some'] at h
  injection h with h
  injection h with h1 h2
  subst h1
  subst h2
  have hnlt : ∀ n ∈ nodes, n < w.counter := by
    simp only [gatherD] at hg
    refine gatherLoop_sound w (fun a => a < w.counter) ?_ fuel [init] [init]
      nodes hg ?_ ?_
    · intro a haR t ht
      rcases List.mem_map.mp ht with ⟨p, hp, hpt⟩
      cases hx : alookup a w.dmap with
      | none =>
          rw [getD, hx] at hp
          exact absurd hp (List.not_mem_nil _)
      | some nd =>
          have hpm : p ∈ nd.trans := by rw [getD, hx] at hp; exact hp
          have := htgt (a, nd) (alookup_mem hx) p hpm
          rw [← hpt]
          exact this
    · intro a ha2
      rw [List.mem_singleton] at ha2
      subst ha2
      exact hinit
    · intro a ha2
      rw [List.mem_singleton] at ha2
      subst ha2
      exact hinit
  obtain ⟨hkeys, hfinP, hinvP⟩ :=
    refineLoop_spec fuel (initCls w nodes) 3 cls hr (initCls_keys w nodes)
      (initCls_bounds w nodes) (initCls_fin w nodes) (initCls_inv w alpha nodes)
  obtain ⟨hcle, hnm1, hpres1, hmv, hcov, hnd⟩ := allocMin_spec _ _ _ _ _ _ hal
  have hmge : ∀ q ∈ m, w.counter ≤ q.2 ∧ q.2 < w1.counter := by
    intro q hq
    rcases hmv q hq with habs | hh
    · exact absurd habs (List.not_mem_nil q)
    · exact hh
  have hminj : ∀ p q, p ∈ m → q ∈ m → p.2 = q.2 → p.1 = q.1 :=
    allocMin_inj _ _ _ _ _ _ hal
      (by intro p hp; exact absurd hp (List.not_mem_nil p))
      (by intro p q hp _ _; exact absurd hp (List.not_mem_nil p))
  have hfreshtr := allocMin_fresh_trans _ _ _ _ _ _ hal hwf
  have htw2 : transWf w2 :=
    transWf_linkAll _ _ _ _ _ _ hla (transWf_allocMin _ _ _ _ _ _ hal htw)
  have hpresN : ∀ n, n < w.counter → getD w1 n = getD w n := by
    intro n hn
    rw [getD, getD, hpres1 n hn]
  have hCopy : ∀ cid dn, alookup cid m = some dn →
      (∃ n2 ∈ nodes, alookup n2 cls = some cid) →
      ∃ n0, n0 ∈ nodes ∧ alookup n0 cls = some cid ∧
        (∀ l t, alookup l (getD w n0).trans = some t →
           ∃ ct mt, alookup t cls = some ct ∧ alookup ct m = some mt ∧
             alookup l (getD w2 dn).trans = some mt) ∧
        (∀ l, alookup l (getD w n0).trans = none →
           alookup l (getD w2 dn).trans = none) := by
    intro cid dn hdn hcov2
    obtain ⟨n0, hmem, hcls0, hcopy, hframe⟩ :=
      linkAll_copy nodes cls m w1 [] w2 hla hminj
        (fun n2 h2 => by
          rw [hpresN n2 (hnlt n2 h2)]
          exact transWfD htw n2)
        (fun n2 h2 q hq => by
          have hx1 := (hmge q hq).1
          have hx2 := hnlt n2 h2
          omega)
        cid dn hdn (List.not_mem_nil cid) hcov2
    refine ⟨n0, hmem, hcls0, ?_, ?_⟩
    · intro l t hlt
      exact hcopy l t (by rw [hpresN n0 (hnlt n0 hmem)]; exact hlt)
    · intro l hl
      have h2 := hframe l (by rw [hpresN n0 (hnlt n0 hmem)]; exact hl)
      rw [h2]
      have hdge : w.counter ≤ dn := (hmge (cid, dn) (alookup_mem hdn)).1
      rw [hfreshtr dn hdge]
      rfl
  have hkeymem : ∀ x cidx, alookup x cls = some cidx → x ∈ nodes := by
    intro x cidx hx
    rw [← hkeys]
    exact List.mem_map.mpr ⟨(x, cidx), alookup_mem hx, rfl⟩
  have hreachP : ∀ j, ReachD w2 mival j →
      ∃ cid dn, alookup cid m = some dn ∧ dn = j ∧
        ∃ nj, alookup nj cls = some cid := by
    intro j hj
    induction hj with
    | refl => exact ⟨cid0, mival, hmi, rfl, init, hci⟩
    | @step i j l hprev hmem2 ihh =>
        obtain ⟨cid, dn, hdn, hdni, ni, hni⟩ := ihh
        subst hdni
        have hnodup : (((getD w2 dn).trans.map Prod.fst)).Nodup := transWfD htw2 dn
        have hlk : alookup l (getD w2 dn).trans = some j :=
          alookup_of_mem_nodup hnodup hmem2
        obtain ⟨n0, hmem0, hcls0, hcopy, hframe⟩ :=
          hCopy cid dn hdn ⟨ni, hkeymem ni cid hni, hni⟩
        cases hsrc : alookup l (getD w n0).trans with
        | none =>
            rw [hframe l hsrc] at hlk
            exact Option.noConfusion hlk
        | some t =>
            obtain ⟨ct, mt, hct, hmt, hres⟩ := hcopy l t hsrc
            rw [hres] at hlk
            injection hlk with hlk
            exact ⟨ct, mt, hmt, hlk, t, hct⟩
  intro i j hri hrj hfeq hleq
  obtain ⟨ci, dni, hdni, hei, nci, hnci⟩ := hreachP i hri
  obtain ⟨cj, dnj, hdnj, hej, ncj, hncj⟩ := hreachP j hrj
  subst hei
  subst hej
  obtain ⟨ni0, hni0mem, hni0cls, hcopyi, hframei⟩ :=
    hCopy ci dni hdni ⟨nci, hkeymem nci ci hnci, hnci⟩
  obtain ⟨nj0, hnj0mem, hnj0cls, hcopyj, hframej⟩ :=
    hCopy cj dnj hdnj ⟨ncj, hkeymem ncj cj hncj, hncj⟩
  have hdig : ∀ l, digitOpt w cls ni0 l = digitOpt w cls nj0 l := by
    intro l
    cases hsi : alookup l (getD w ni0).trans with
    | none =>
        cases hsj : alookup l (getD w nj0).trans with
        | none => simp [digitOpt, hsi, hsj]
        | some tj =>
            obtain ⟨ctj, mtj, hctj, hmtj, hresj⟩ := hcopyj l tj hsj
            have hzi := hframei l hsi
            rw [hleq l, hresj] at hzi
            exact Option.noConfusion hzi
    | some ti =>
        obtain ⟨cti, mti, hcti, hmti, hresi⟩ := hcopyi l ti hsi
        cases hsj : alookup l (getD w nj0).trans with
        | none =>
            have hzj := hframej l hsj
            rw [← hleq l, hresi] at hzj
            exact Option.noConfusion hzj
        | some tj =>
            obtain ⟨ctj, mtj, hctj, hmtj, hresj⟩ := hcopyj l tj hsj
            have hsame : some mti = some mtj := by
              rw [← hresi, ← hresj, hleq l]
            injection hsame with hmm
            subst hmm
            have hcteq : cti = ctj :=
              hminj (cti, mti) (ctj, mti) (alookup_mem hmti)
                (alookup_mem hmtj) rfl
            simp [digitOpt, hsi, hsj, hcti, hctj, hcteq]
  have hfin2 : (getD w ni0).isFinal = (getD w nj0).isFinal := by
    have hlf := linkAll_fin _ _ _ _ _ _ hla
    rcases allocMin_fin _ _ _ _ _ _ hal hwf hnlt ci dni hdni with
      habs | ⟨nai, hnai, hfai⟩
    · simp [alookup] at habs
    rcases allocMin_fin _ _ _ _ _ _ hal hwf hnlt cj dnj hdnj with
      habs | ⟨naj, hnaj, hfaj⟩
    · simp [alookup] at habs
    have hnai_lt : nai < w.counter := hnlt nai (hkeymem nai ci hnai)
    have hnaj_lt : naj < w.counter := hnlt naj (hkeymem naj cj hnaj)
    have e1 : (getD w2 dni).isFinal = (getD w1 dni).isFinal := hlf dni
    have e2 : (getD w2 dnj).isFinal = (getD w1 dnj).isFinal := hlf dnj
    have f1 : (getD w nai).isFinal = (getD w ni0).isFinal :=
      hfinP nai ni0 ci hnai hni0cls
    have f2 : (getD w naj).isFinal = (getD w nj0).isFinal :=
      hfinP naj nj0 cj hnaj hnj0cls
    rw [e1, hfai, hpresN nai hnai_lt, f1] at hfeq
    rw [e2, hfaj, hpresN naj hnaj_lt, f2] at hfeq
    exact hfeq
  have hceq : ci = cj := by
    by_contra hne
    rcases hinvP ni0 nj0 ci cj hni0cls hnj0cls hne with hf | ⟨l, _, hld⟩
    · exact hf hfin2
    · exact hld (hdig l)
  subst hceq
  rw [hdni] at hdnj
  injection hdnj


/-! # Helper facts for the concrete counterexample automata -/

set_option maxHeartbeats 4000000 in
theorem groupsLoop_lit {c : Char}
    (h1 : c ≠ '*') (h2 : c ≠ '\\') (h3 : c ≠ '|') (h4 : c ≠ 'ε')
    (h5 : c ≠ '(') (h6 : c ≠ ')') (h7 : c ≠ 'Σ') (h8 : c ≠ '.') (h9 : c ≠ '?') :
    groupsLoop 0 6
      ⟨4, [(1, ⟨false, [(Label.eps, [3])]⟩), (2, ⟨true, []⟩), (3, ⟨false, []⟩)],
        [(0, trapNode)]⟩ 1 2 3 [(c, none)] 0 0 false false 3 [] 0 =
      .ok (litW c, false, 0, []) := by
  simp [groupsLoop, concatW, h1, h2, h3, h4, h5, h6, h7, h8, h9]
  rfl

theorem parseE_lit {c : Char}
    (h1 : c ≠ '*') (h2 : c ≠ '\\') (h3 : c ≠ '|') (h4 : c ≠ 'ε')
    (h5 : c ≠ '(') (h6 : c ≠ ')') (h7 : c ≠ 'Σ') (h8 : c ≠ '.') (h9 : c ≠ '?') :
    parseE (String.mk [c]) 0 = .ok (litW c, 1) := by
  show (match groupsLoop 0 6
      ⟨4, [(1, ⟨false, [(Label.eps, [3])]⟩), (2, ⟨true, []⟩), (3, ⟨false, []⟩)],
        [(0, trapNode)]⟩ 1 2 3 [(c, none)] 0 0 false false 3 [] 0 with
    | .error e => Except.error e
    | .ok (w, _, _, rest) =>
        if rest.isEmpty then Except.ok (w, 1)
        else Except.error PErr.unmatchedParenTypeError) = .ok (litW c, 1)
  rw [groupsLoop_lit h1 h2 h3 h4 h5 h6 h7 h8 h9]
  rfl

set_option maxHeartbeats 4000000 in
theorem litMatch {c : Char} : ∀ s : List Char,
    nfaMatch (litW c) 1 s = decide (s = [c]) := by
  intro s
  cases s with
  | nil => rfl
  | cons a cs =>
      by_cases ha : a = c
      · subst ha
        cases cs with
        | nil =>
            simp [nfaMatch, nfaMatchGo, closureW, expandLoop, ndRead, getN,
              alookup, litW, unionNat, insNat, diffNat]
        | cons b cs' =>
            have hne : a :: b :: cs' ≠ [a] := by simp
            rw [decide_eq_false hne]
            simp [nfaMatch, nfaMatchGo, closureW, expandLoop, ndRead, getN,
              alookup, litW, unionNat, insNat, diffNat]
      · have hne : a :: cs ≠ [c] := by
          intro h; injection h with h' _; exact ha h'
        rw [decide_eq_false hne]
        simp [nfaMatch, nfaMatchGo, closureW, expandLoop, ndRead, getN,
          alookup, litW, unionNat, insNat, diffNat, Ne.symm ha]

theorem qMatch : ∀ s : List Char,
    parseMatch "?" 0 (String.mk s) = some (decide (s = [])) := by
  intro s
  cases s with
  | nil => rfl
  | cons a cs => rfl

theorem saW2_dmapWf : dmapWf saW2 := by
  intro p hp
  exact (by decide : ∀ q ∈ saW2.dmap, q.1 < saW2.counter) p hp

theorem saW2_transWf : transWf saW2 := by
  intro p hp
  exact (by decide :
    ∀ q ∈ saW2.dmap, ((q.2.trans.map Prod.fst).Nodup)) p hp

theorem cexNode19_eq :
    getD cexW 19 = ⟨false, [(Label.chr 'a', 23), (Label.sig, 23)]⟩ := by decide

theorem cexNode22_eq : getD cexW 22 = ⟨false, [(Label.sig, 23)]⟩ := by decide

theorem cexRead19 : ∀ c : Char, dnRead (getD cexW 19) c = some 23 := by
  intro c
  rw [cexNode19_eq]
  by_cases hc : c = 'a'
  · subst hc; rfl
  · have hc2 : ¬(Label.chr 'a' = Label.chr c) := by
      intro h
      injection h with h
      exact hc h.symm
    simp [dnRead, alookup, hc2]

theorem cexRead22 : ∀ c : Char, dnRead (getD cexW 22) c = some 23 := by
  intro c
  rw [cexNode22_eq]
  rfl

theorem cexSameLang : sameLang cexW 19 22 := by
  intro s
  cases s with
  | nil => rw [dfaMatch, dfaMatch, cexNode19_eq, cexNode22_eq]
  | cons c cs =>
      have e1 : dfaMatch cexW 19 (c :: cs) = dfaMatch cexW 23 cs := by
        simp only [dfaMatch, cexRead19 c]
      have e2 : dfaMatch cexW 22 (c :: cs) = dfaMatch cexW 23 cs := by
        simp only [dfaMatch, cexRead22 c]
      rw [e1, e2]

/-! # Claim theorems -/

/-- C1: the spec claims that for every pattern P and string s the Thompson
NFA, the subset-construction DFA, the completed DFA and the minimized DFA
return the same `match(s)`.  Evaluating the code on pattern `Σ*a` and
string `"aa"` refutes this: the NFA accepts, while the DFA, the completed
DFA and the minimized DFA all reject, because `DFA.from_ndfa` builds the
transition for a concrete symbol from the explicit symbol edges only — the
Σ edges of the same state set are collected under a separate Σ transition,
and `DN.read` prefers the explicit symbol — so the Σ alternative is lost.
On strings that exercise only one of the two edge kinds per step (such as
`"ba"`) all stages still agree. -/
theorem C1_pipeline_language_divergence :
    matchAllStages "Σ*a" "aa" 0 100 =
      some (true, false, some false, some false) ∧
    matchAllStages "Σ*a" "ba" 0 100 =
      some (true, true, some true, some true) := by
  exact ⟨by decide, by decide⟩

/-- C2 (counterexample): the claim asserts that in every minimized
automaton any two distinct reachable states are separated by some suffix.
In the minimized automaton of the pattern `x(a|Σ)|yΣ`, states 19 and 22
are distinct, both reachable from the minimized initial state, and accept
exactly the same suffixes — state 19 carries the redundant explicit
`a`-edge next to its Σ edge (both to state 23), state 22 only the Σ edge,
so their raw-table signatures never coincide during refinement even though
they are behaviorally equal. -/
theorem C2_minimality_counterexample :
    (19 : Nat) ≠ 22 ∧ ReachD cexW cexMi 19 ∧ ReachD cexW cexMi 22 ∧
    sameLang cexW 19 22 := by
  refine ⟨by decide, ?_, ?_, cexSameLang⟩
  · exact ReachD.step ReachD.refl
      (show (Label.chr 'x', 19) ∈ (getD cexW cexMi).trans by decide)
  · exact ReachD.step ReachD.refl
      (show (Label.chr 'y', 22) ∈ (getD cexW cexMi).trans by decide)

/-- C2 (amended): in the automaton produced by `DCMFA.from_dcfa`, no two
distinct reachable states have identical (finality, raw transition-target
signature): universally, for every input world satisfying the dictionary
well-formedness invariants, any two reachable minimized states with the
same finality and identical raw transition-table lookups at every label
are the same state — this is the fixed point of the signature refinement.
It does not imply that some suffix separates every pair of distinct
reachable states.  The minimized automaton of `(a|b)*abb` has exactly 5
reachable states, pairwise distinguished by those signatures. -/
theorem C2_minimality_amended :
    (∀ (w : World) (init fuel : Nat) (w' : World) (mi : Nat),
      dcmfaFromDcfa w init fuel = some (w', mi) →
      dmapWf w → transWf w →
      (∀ p ∈ w.dmap, ∀ q ∈ p.2.trans, q.2 < w.counter) →
      init < w.counter →
      ∀ i j, ReachD w' mi i → ReachD w' mi j →
        (getD w' i).isFinal = (getD w' j).isFinal →
        (∀ l, alookup l (getD w' i).trans = alookup l (getD w' j).trans) →
        i = j) ∧
    minSigCheck "(a|b)*abb" 100 = some (5, true) := by
  refine ⟨?_, by decide⟩
  intro w init fuel w' mi h hwf htw htgt hinit
  exact dcmfa_sig_distinct h hwf htw htgt hinit

/-- C2 (witness): the distinctness theorem instantiated on the completed
`Σ*a` automaton: the minimized initial state is the only reachable state
with its finality and lookup table, and its id evaluates to 14. -/
theorem C2_minimality_amended_witness : saMin.2 = 14 :=
  C2_minimality_amended.1 saW2 saDfa.2 100 saMin.1 saMin.2 rfl saW2_dmapWf
    saW2_transWf (by decide) (by decide) saMin.2 14 ReachD.refl ReachD.refl
    rfl (fun _ => rfl)

/-- C3: for every completed DFA (output of `DCFA.from_dfa` on a world
whose node 0 is the module trap node) and every minimized DFA derived
from such a completed DFA, `read(state, c)` is defined (`DN.read` returns
a node) for every reachable state and every input symbol, so no match run
ever hits an undefined transition. -/
theorem C3_read_total :
    (∀ (w : World) (init fuel : Nat) (w' : World),
      dcfaFromDfa w init fuel = some w' → getD w 0 = trapNode →
      ∀ i, ReachD w' init i → ∀ c : Char,
        (dnRead (getD w' i) c).isSome = true) ∧
    (∀ (w : World) (init fuel : Nat) (wc : World) (fuel2 : Nat)
      (w' : World) (mi : Nat),
      dcfaFromDfa w init fuel = some wc → getD w 0 = trapNode → dmapWf wc →
      dcmfaFromDcfa wc init fuel2 = some (w', mi) →
      ∀ j, ReachD w' mi j → ∀ c : Char,
        (dnRead (getD w' j) c).isSome = true) := by
  constructor
  · intro w init fuel w' hc htrap i hi c
    exact hasSigB_dnRead_isSome (dcfa_total hc htrap i hi) c
  · intro w init fuel wc fuel2 w' mi hc htrap hwf hm j hj c
    exact (dcmfa_spec hm hwf).2.2.2.2.2 (dcfa_total hc htrap) j hj c

/-- C3 (witness): instantiating the totality theorem on the `Σ*a` pipeline
at the initial states and the symbol `q` (which no table mentions). -/
theorem C3_read_total_witness :
    (dnRead (getD saW2 saDfa.2) 'q').isSome = true ∧
    (dnRead (getD saMin.1 saMin.2) 'q').isSome = true := by
  constructor
  · exact C3_read_total.1 saDfa.1 saDfa.2 100 saW2 rfl (by decide)
      saDfa.2 ReachD.refl 'q'
  · exact C3_read_total.2 saDfa.1 saDfa.2 100 saW2 100 saMin.1 saMin.2 rfl
      (by decide) saW2_dmapWf rfl saMin.2 ReachD.refl 'q'

/-- C4: for every automaton state graph, initial node and string, the
(spec-modelled) prefix reads satisfy
`0 ≤ read_lazy(s) ≤ read_greedy(s) ≤ |s|`. -/
theorem C4_read_lazy_greedy_bounds :
    ∀ (w : World) (init : Nat) (s : List Char),
      0 ≤ readLazy w init s ∧
      readLazy w init s ≤ readGreedy w init s ∧
      readGreedy w init s ≤ s.length := by
  intro w init s
  refine ⟨Nat.zero_le _, lazyAux_le_greedyAux w s init 0 0 (le_refl 0), ?_⟩
  have h := greedyAux_le w s init 0 0 (le_refl 0)
  simpa using h

/-- C5: compiling the empty pattern is claimed not to be an error, but
`parse.main` runs `next(p2)` on an empty iterator without a guard, so the
empty pattern raises an uncaught `StopIteration` (with any flags). -/
theorem C5_empty_pattern_raises :
    parseE "" 0 = .error .stopIteration ∧
    parseE "" 1 = .error .stopIteration := ⟨rfl, rfl⟩

/-- C6: the claimed raises-iff contract for malformed patterns fails on
the code: an unmatched `(` (pattern `"(a"`) parses silently into the
automaton of `a`, a trailing unmatched `)` (pattern `"a)"`) parses
silently, a mid-pattern unmatched `)` (pattern `"a)b"`) raises a
`TypeError` (the "Unmatched parenthesis" `ParsingError` is constructed
with its `pattern` and `index` arguments swapped), an unterminated `[`
expands silently to the empty pattern, and a reversed range `[9-0]`
expands silently to `()`.  Only the Kleene and escape errors behave as
claimed (position-carrying `ParsingError`s). -/
theorem C6_malformed_pattern_errors :
    (parseE "(a" 0).toOption.isSome = true ∧
    parseMatch "(a" 0 "a" = some true ∧
    (parseE "a)" 0).toOption.isSome = true ∧
    parseE "a)b" 0 = .error .unmatchedParenTypeError ∧
    parseE "*" 0 = .error (.invalidKleene 0) ∧
    parseE "\\" 0 = .error (.invalidEscape 0) ∧
    expandP "[ab" = .ok "" ∧
    expandP "[9-0]" = .ok "()" := by
  exact ⟨rfl, rfl, rfl, rfl, rfl, rfl, rfl, rfl⟩

/-- C7: with IGNORE_CASE the code is claimed to give every literal ASCII
letter a sibling transition of the opposite case.  It does so only for
lowercase letters and for the letter `A` (the source compares
`"A" <= char <= "A"`), so pattern `"B"` with IGNORE_CASE does not match
`"b"`; moreover `NDFA.from_pattern` passes `flags=0` to `parse`, dropping
the flag entirely, and `concat` crashes with a `TypeError` when comparing
the Σ sentinel against `"a"` under IGNORE_CASE. -/
theorem C7_ignore_case_bug :
    parseMatch "B" 1 "b" = some false ∧
    parseMatch "B" 1 "B" = some true ∧
    parseMatch "b" 1 "B" = some true ∧
    parseMatch "A" 1 "a" = some true ∧
    parseMatch "a" 1 "A" = some true ∧
    fromPatternMatch "a" 1 "A" = some false ∧
    parseE "Σ" 1 = .error .ignoreCaseSigmaTypeError := by
  exact ⟨rfl, rfl, rfl, rfl, rfl, rfl, rfl⟩

/-- C8 (counterexample): the claim says every character other than
`* \ | ε ( ) Σ` — in particular `.` — is a literal, so the pattern `"."`
should match only the string `"."`.  The parser treats `.` as an alias of
Σ, and the automaton of `"."` matches `"a"`. -/
theorem C8_metachar_counterexample : parseMatch "." 0 "a" = some true := rfl

/-- C8 (amended): the canonical grammar additionally treats `.` as an
alias of Σ and `?` as an alias of ε: the pattern `"."` matches every
single-character string, the pattern `"?"` matches exactly the empty
string, and every character outside the nine `* \ | ε ( ) Σ . ?` is a
literal — its one-character pattern matches exactly that character and
nothing else. -/
theorem C8_metachar_amended :
    (∀ c : Char, parseMatch "." 0 (String.mk [c]) = some true) ∧
    (∀ s : List Char, parseMatch "?" 0 (String.mk s) = some (decide (s = []))) ∧
    (∀ c : Char, c ∉ ['*', '\\', '|', 'ε', '(', ')', 'Σ', '.', '?'] →
      ∀ s : List Char, parseMatch (String.mk [c]) 0 (String.mk s) =
        some (decide (s = [c]))) := by
  refine ⟨fun _ => rfl, qMatch, ?_⟩
  intro c hc s
  simp only [List.mem_cons, not_or] at hc
  obtain ⟨h1, h2, h3, h4, h5, h6, h7, h8, h9, -⟩ := hc
  have e := parseE_lit h1 h2 h3 h4 h5 h6 h7 h8 h9
  simp only [parseMatch, e]
  rw [show (String.mk s).toList = s from rfl, litMatch]

/-- C8 (witness): the literal clause instantiated at the character `x`:
its pattern matches `"x"` and rejects `"y"` and `""`. -/
theorem C8_metachar_amended_witness :
    parseMatch "x" 0 "x" = some true ∧ parseMatch "x" 0 "y" = some false ∧
    parseMatch "x" 0 "" = some false := by
  refine ⟨?_, ?_, ?_⟩
  · exact C8_metachar_amended.2.2 'x' (by decide) ['x']
  · exact C8_metachar_amended.2.2 'x' (by decide) ['y']
  · exact C8_metachar_amended.2.2 'x' (by decide) []

/-- C9 (counterexample): the claim says every pipeline stage leaves the
nodes of its input automaton unchanged.  On the `Σ*a` pipeline,
determinization mutates NFA node 6 in place (its `a` edge is ε-closure
saturated through the set object returned by `read`), and completion
mutates DFA node 9 in place (`setdefault` adds the Σ edge to the trap). -/
theorem C9_stage_isolation_counterexample :
    getN saDfa.1 6 ≠ getN saW0 6 ∧ getD saW2 9 ≠ getD saDfa.1 9 := by
  exact ⟨by decide, by decide⟩

/-- C9 (amended): minimization builds a fresh graph — it leaves the
nondeterministic store and every existing deterministic node unchanged and
allocates only fresh ids — while determinization mutates the NFA's
transition sets in place (exactly by ε-closure saturation) and completion
returns the same graph with a `(Σ, trap)` entry appended in place to nodes
lacking Σ. -/
theorem C9_stage_isolation_amended :
    (∀ (w : World) (init fuel : Nat) (w' : World) (mi : Nat),
      dcmfaFromDcfa w init fuel = some (w', mi) → dmapWf w →
      w'.nmap = w.nmap ∧
      (∀ id, id < w.counter → alookup id w'.dmap = alookup id w.dmap) ∧
      w.counter ≤ mi) ∧
    ndRead saDfa.1 6 (Label.chr 'a') =
      closureW saW0 (ndRead saW0 6 (Label.chr 'a')) ∧
    (getD saW2 9).trans = (getD saDfa.1 9).trans ++ [(Label.sig, 0)] := by
  refine ⟨?_, by decide, by decide⟩
  intro w init fuel w' mi h hwf
  obtain ⟨h1, h2, h3, _⟩ := dcmfa_spec h hwf
  exact ⟨h1, h2, h3⟩

/-- C9 (witness): instantiating the minimization-frame part on the `Σ*a`
pipeline: minimizing leaves the completed automaton's node 9 untouched and
the nondeterministic store identical. -/
theorem C9_stage_isolation_witness :
    alookup 9 saMin.1.dmap = alookup 9 saW2.dmap ∧
    saMin.1.nmap = saW2.nmap := by
  have h := C9_stage_isolation_amended.1 saW2 saDfa.2 100 saMin.1 saMin.2 rfl
    saW2_dmapWf
  exact ⟨h.2.1 9 (by decide), h.1⟩

/-- C10: `DCMFA.from_dcfa` builds its result from freshly created nodes
only: every state reachable in the minimized automaton has an id at or
above the input world's counter — so it is shared with no input node and
is in particular distinct from the module trap node (id 0) — and no
matching run on the minimized automaton ever steps into node 0, so the
`node is trap_node` identity test of `DCFA.match` never fires there.
Rejection still occurs: on the `Σ*a` pipeline the fresh trap-class node 11
is non-final and absorbing, the minimized automaton still rejects `"ab"`
(returning `False`, not by the identity test), while the completed
automaton rejects the same string through the identity test. -/
theorem C10_minimized_fresh_nodes :
    (∀ (w : World) (init fuel : Nat) (w' : World) (mi : Nat),
      dcmfaFromDcfa w init fuel = some (w', mi) → dmapWf w → 0 < w.counter →
      (∀ j, ReachD w' mi j → w.counter ≤ j ∧ j ≠ 0) ∧
      (∀ s : List Char, trapHit w' mi s = false)) ∧
    getD saMin.1 11 = ⟨false, [(Label.sig, 11)]⟩ ∧
    dcfaMatch saMin.1 saMin.2 "ab".toList = some false ∧
    trapHit saMin.1 saMin.2 "ab".toList = false ∧
    dcfaMatch saW2 saDfa.2 "ab".toList = some false ∧
    trapHit saW2 saDfa.2 "ab".toList = true := by
  refine ⟨?_, by decide, by decide, by decide, by decide, by decide⟩
  intro w init fuel w' mi h hwf h0
  obtain ⟨_, _, _, h4, h5, _⟩ := dcmfa_spec h hwf
  constructor
  · intro j hj
    have := h4 j hj
    exact ⟨this, by omega⟩
  · exact h5 h0

/-- C10 (witness): instantiating the freshness part on the `Σ*a`
pipeline. -/
theorem C10_minimized_fresh_nodes_witness :
    trapHit saMin.1 saMin.2 "xyz".toList = false ∧ saMin.2 ≠ 0 := by
  have h := C10_minimized_fresh_nodes.1 saW2 saDfa.2 100 saMin.1 saMin.2 rfl
    saW2_dmapWf (by decide)
  exact ⟨h.2 _, (h.1 saMin.2 ReachD.refl).2⟩

end Regexp
